import Mathlib

/-!
Verification of a small BFS graph module (src/code4.py).

The module implements an adjacency-list graph with four operations:
single-source breadth-first search producing a traversal order together
with level and parent arrays, BFS over all connected components,
shortest-path reconstruction from the parent array, and a diagnostic
adjacency-list dump.

Two embeddings of the code are developed here.

The first (the Graph namespace) models executions in which the stored
neighbor indices and the start vertex lie inside the vertex range, which
is the situation the universally quantified algorithmic claims quantify
over.  In that regime every Python list access is an ordinary in-bounds
access, so the arrays are modelled as Lean lists with total in-range
access, and the unbounded while loops are modelled with an explicit fuel
parameter proved sufficient.

The second (the PyGraph namespace) keeps the exact Python semantics:
integer indices with negative-index wraparound, IndexError on accesses
outside the wraparound range, and the defaultdict used for the adjacency
list, whose reads insert an empty entry for a missing key.  This model is
used for the error-behavior and frame claims and for the concrete
example scenario.
-/

/-! ### Small kit of list lemmas used throughout -/

/-- Number of true entries of a boolean list. -/
def countTrue (l : List Bool) : Nat := l.count true

theorem countTrue_le_length (l : List Bool) : countTrue l ≤ l.length :=
  List.count_le_length true l

theorem getD_set_self {α : Type} (l : List α) (n : Nat) (a d : α)
    (h : n < l.length) : (l.set n a).getD n d = a := by
  induction l generalizing n with
  | nil => simp at h
  | cons x xs ih =>
    cases n with
    | zero => simp [List.set, List.getD]
    | succ m =>
      simp only [List.set, List.getD_cons_succ]
      exact ih m (by simpa using h)

theorem getD_set_ne {α : Type} (l : List α) (n m : Nat) (a d : α)
    (h : n ≠ m) : (l.set n a).getD m d = l.getD m d := by
  induction l generalizing n m with
  | nil => simp [List.set]
  | cons x xs ih =>
    cases n with
    | zero =>
      cases m with
      | zero => exact absurd rfl h
      | succ k => simp [List.set, List.getD_cons_succ]
    | succ n' =>
      cases m with
      | zero => simp [List.set, List.getD_cons_zero]
      | succ k =>
        simp only [List.set, List.getD_cons_succ]
        exact ih n' k (fun hc => h (by rw [hc]))

theorem getD_replicate_lt {α : Type} (n k : Nat) (a d : α) (h : k < n) :
    (List.replicate n a).getD k d = a := by
  induction n generalizing k with
  | zero => omega
  | succ m ih =>
    cases k with
    | zero => simp [List.replicate]
    | succ j =>
      simp only [List.replicate, List.getD_cons_succ]
      exact ih j (by omega)

theorem getD_ge_length {α : Type} (l : List α) (k : Nat) (d : α)
    (h : l.length ≤ k) : l.getD k d = d := by
  induction l generalizing k with
  | nil => simp [List.getD]
  | cons x xs ih =>
    cases k with
    | zero => simp at h
    | succ j =>
      simp only [List.getD_cons_succ]
      exact ih j (by simpa using h)

theorem lt_length_of_getD_set (l : List Bool) (n : Nat)
    (h : l.getD n true = false) : n < l.length := by
  by_contra hc
  rw [getD_ge_length l n true (by omega)] at h
  exact Bool.noConfusion h

theorem countTrue_set_true (l : List Bool) (n : Nat)
    (h : l.getD n true = false) : countTrue (l.set n true) = countTrue l + 1 := by
  induction l generalizing n with
  | nil => simp [List.getD] at h
  | cons x xs ih =>
    cases n with
    | zero =>
      simp only [List.getD_cons_zero] at h
      subst h
      simp [List.set, countTrue, List.count_cons]
    | succ m =>
      simp only [List.getD_cons_succ] at h
      simp only [List.set, countTrue, List.count_cons]
      have := ih m h
      simp only [countTrue] at this
      omega

theorem pairwise_map_const_le (l : List Nat) (f : Nat → Int) (c : Int)
    (h : ∀ x ∈ l, f x = c) : (l.map f).Pairwise (· ≤ ·) := by
  induction l with
  | nil => simp
  | cons x xs ih =>
    simp only [List.map_cons, List.pairwise_cons]
    constructor
    · intro b hb
      obtain ⟨y, hy, rfl⟩ := List.mem_map.mp hb
      rw [h x (by simp), h y (by simp [hy])]
    · exact ih (fun y hy => h y (by simp [hy]))

/-! ### The in-range model of the graph and its traversals

The Python class stores the vertex count V and a defaultdict adjacency
list.  In the in-range regime, only keys in the interval from 0 to V - 1
are ever consulted, so the adjacency is modelled as a list of neighbor
lists consulted with an empty default, mirroring the defaultdict default. -/

/-- Graph with a vertex count and an adjacency list; mirrors the fields
V and adj_list of the Python class for in-range executions. -/
structure Graph where
  V : Nat
  adj_list : List (List Nat)

/-- Neighbor list of a vertex: the stored list, or the defaultdict
default (the empty list) when no edge ever touched the key. -/
def Graph.nbrs (g : Graph) (u : Nat) : List Nat := g.adj_list.getD u []

/-- All stored neighbor indices lie inside the vertex range.  This is the
data-model invariant assumed by the universally quantified claims. -/
def Graph.InRange (g : Graph) : Prop := ∀ l ∈ g.adj_list, ∀ v ∈ l, v < g.V

instance (g : Graph) : Decidable g.InRange := by
  unfold Graph.InRange
  infer_instance

theorem Graph.nbrs_lt (g : Graph) (hg : g.InRange) (u v : Nat)
    (hv : v ∈ g.nbrs u) : v < g.V := by
  unfold Graph.nbrs at hv
  by_cases h : u < g.adj_list.length
  · have : g.adj_list.getD u [] ∈ g.adj_list := by
      rw [List.getD_eq_getElem?_getD]
      have := List.getElem?_eq_getElem (l := g.adj_list) (n := u) h
      rw [this]
      simp [List.getElem_mem]
    exact hg _ this v hv
  · rw [getD_ge_length _ _ _ (by omega)] at hv
    simp at hv

/-- Reachability with an edge count: Reach g s v n says there is a walk
of n edges from s to v along stored neighbor lists. -/
inductive Reach (g : Graph) (s : Nat) : Nat → Nat → Prop
  | refl : Reach g s s 0
  | step : ∀ {u v n}, Reach g s u n → v ∈ g.nbrs u → Reach g s v (n + 1)

theorem Reach.lt (g : Graph) (s : Nat) (hg : g.InRange) (hs : s < g.V) :
    ∀ {v n}, Reach g s v n → v < g.V := by
  intro v n h
  induction h with
  | refl => exact hs
  | step _ hv _ => exact g.nbrs_lt hg _ _ hv

/-- The mutable local state of the bfs method: the visited, parent and
level arrays, the traversal order accumulated so far, and the FIFO
queue. -/
structure BfsState where
  visited : List Bool
  parent : List Int
  level : List Int
  order : List Nat
  queue : List Nat

/-- Visited flag of a vertex.  The default at an out-of-range index is
true, which makes such an index be skipped; the claims only concern
in-range executions, where the default is never consulted. -/
def visB (st : BfsState) (v : Nat) : Bool := st.visited.getD v true

/-- Level of a vertex; defaults to the sentinel -1 out of range. -/
def lvlB (st : BfsState) (v : Nat) : Int := st.level.getD v (-1)

/-- Parent of a vertex; defaults to the sentinel -1 out of range. -/
def parB (st : BfsState) (v : Nat) : Int := st.parent.getD v (-1)

/-- Body of the inner for loop of bfs: if the neighbor is unvisited,
mark it, record its parent and level, and enqueue it. -/
def visitStep (current n : Nat) (st : BfsState) : BfsState :=
  if st.visited.getD n true then st
  else
    { st with
      visited := st.visited.set n true
      parent := st.parent.set n (current : Int)
      level := st.level.set n (st.level.getD current (-1) + 1)
      queue := st.queue ++ [n] }

/-- The inner for loop of bfs over the neighbor list of the current
vertex. -/
def visitNeighbors (current : Nat) : List Nat → BfsState → BfsState
  | [], st => st
  | n :: ns, st => visitNeighbors current ns (visitStep current n st)

/-- The while loop of bfs, with an explicit fuel parameter standing in
for the unbounded Python loop.  Each iteration pops the queue head,
appends it to the traversal order and processes its neighbors. -/
def bfsLoop (g : Graph) (fuel : Nat) (st : BfsState) : Option BfsState :=
  match st.queue with
  | [] => some st
  | current :: rest =>
    match fuel with
    | 0 => none
    | fuel + 1 =>
      bfsLoop g fuel (visitNeighbors current (g.nbrs current)
        { st with order := st.order ++ [current], queue := rest })

/-- Initial state of bfs: all-false visited array with start marked,
all-sentinel parent and level arrays with level of start set to 0, empty
traversal order, and the queue seeded with start. -/
def bfsInit (g : Graph) (start : Nat) : BfsState :=
  { visited := (List.replicate g.V false).set start true
    parent := List.replicate g.V (-1)
    level := (List.replicate g.V (-1)).set start 0
    order := []
    queue := [start] }

/-- The bfs method: returns the traversal order and the level and parent
arrays.  Fuel V + 1 is proved sufficient below. -/
def Graph.bfs (g : Graph) (start : Nat) :
    Option (List Nat × List Int × List Int) :=
  (bfsLoop g (g.V + 1) (bfsInit g start)).map fun st =>
    (st.order, st.level, st.parent)

/-- Backward walk of reconstruct_path: follow parent links from a vertex
until the sentinel -1, collecting the visited values.  Fuel stands in for
the unbounded while loop; none means the fuel ran out. -/
def parentWalk (parent : List Int) : Nat → Int → Option (List Int)
  | 0, _ => none
  | fuel + 1, e =>
    if e = -1 then some []
    else
      match parentWalk parent fuel (parent.getD e.toNat (-1)) with
      | none => none
      | some w => some (e :: w)

/-- The reconstruct_path method: walk backward from the end vertex,
reverse, and return the path when its first element is start, the empty
list otherwise.  The none results correspond to fuel exhaustion and to
the IndexError the source hits on an empty walk; both are proved
unreachable in the claims below. -/
def reconstruct_path (start e : Nat) (parent : List Int) : Option (List Int) :=
  match parentWalk parent (parent.length + 1) (e : Int) with
  | none => none
  | some w =>
    match w.reverse with
    | [] => none
    | p :: rest => some (if p = (start : Int) then p :: rest else [])

/-- Inner for loop of bfs_all_components: mark and enqueue the unvisited
neighbors (no parent or level bookkeeping). -/
def markNew : List Nat → List Bool → List Nat → List Bool × List Nat
  | [], visited, queue => (visited, queue)
  | n :: ns, visited, queue =>
    if visited.getD n true then markNew ns visited queue
    else markNew ns (visited.set n true) (queue ++ [n])

/-- Inner while loop of bfs_all_components: pop the queue head, append
it to the current component and process its neighbors. -/
def compLoop (g : Graph) (fuel : Nat) (visited : List Bool)
    (comp queue : List Nat) : Option (List Bool × List Nat) :=
  match queue with
  | [] => some (visited, comp)
  | c :: rest =>
    match fuel with
    | 0 => none
    | fuel + 1 =>
      compLoop g fuel (markNew (g.nbrs c) visited rest).1 (comp ++ [c])
        (markNew (g.nbrs c) visited rest).2

/-- Outer for loop of bfs_all_components over the remaining vertex
indices, carrying the shared visited array. -/
def allCompsFrom (g : Graph) : List Nat → List Bool → Option (List (List Nat))
  | [], _ => some []
  | i :: is, visited =>
    if visited.getD i true then allCompsFrom g is visited
    else
      match compLoop g (g.V + 1) (visited.set i true) [] [i] with
      | none => none
      | some (visited', comp) =>
        match allCompsFrom g is visited' with
        | none => none
        | some comps => some (comp :: comps)

/-- The bfs_all_components method: restart BFS from every still
unvisited vertex in increasing index order. -/
def Graph.bfs_all_components (g : Graph) : Option (List (List Nat)) :=
  allCompsFrom g (List.range g.V) (List.replicate g.V false)

/-- The eight-vertex example graph of the module usage block, with the
bidirectional edges 0-1, 0-2, 1-3, 2-4, 5-6, 6-7, written as the
adjacency lists the edge insertions produce. -/
def exGraph : Graph :=
  { V := 8
    adj_list := [[1, 2], [0, 3], [0, 4], [1], [2], [6], [5, 7], [6]] }

/-! ### Specification of the inner neighbor loop -/

/-- What one run of the inner for loop of bfs does: it leaves the arrays
lengths, the traversal order and all data of untouched vertices alone,
appends a duplicate-free list of freshly visited neighbors to the queue,
and gives every freshly visited neighbor the level of the current vertex
plus one and the current vertex as parent. -/
structure VNSpec (current : Nat) (ns : List Nat) (st r : BfsState)
    (fresh : List Nat) : Prop where
  lenV : r.visited.length = st.visited.length
  lenP : r.parent.length = st.parent.length
  lenL : r.level.length = st.level.length
  order_eq : r.order = st.order
  queue_eq : r.queue = st.queue ++ fresh
  nodup : fresh.Nodup
  mem : ∀ n ∈ fresh, n ∈ ns ∧ visB st n = false ∧ n < st.visited.length
  covered : ∀ n ∈ ns, visB r n = true
  vis_iff : ∀ v, visB r v = true ↔ visB st v = true ∨ v ∈ fresh
  untouched : ∀ v, v ∉ fresh →
    visB r v = visB st v ∧ lvlB r v = lvlB st v ∧ parB r v = parB st v
  fresh_data : ∀ n ∈ fresh,
    lvlB r n = lvlB st current + 1 ∧ parB r n = (current : Int)
  count : countTrue r.visited = countTrue st.visited + fresh.length

theorem visitNeighbors_spec (current : Nat) (ns : List Nat) (st : BfsState)
    (hc : visB st current = true)
    (hP : st.parent.length = st.visited.length)
    (hL : st.level.length = st.visited.length) :
    ∃ fresh, VNSpec current ns st (visitNeighbors current ns st) fresh := by
  induction ns generalizing st with
  | nil =>
    refine ⟨[], ?_⟩
    constructor <;> simp [visitNeighbors]
  | cons n ns ih =>
    by_cases h : st.visited.getD n true = true
    · have hstep : visitStep current n st = st := by
        unfold visitStep
        rw [if_pos h]
      have heq : visitNeighbors current (n :: ns) st
          = visitNeighbors current ns (visitStep current n st) := rfl
      rw [heq, hstep]
      obtain ⟨fresh, hsp⟩ := ih st hc hP hL
      refine ⟨fresh, ?_⟩
      constructor
      · exact hsp.lenV
      · exact hsp.lenP
      · exact hsp.lenL
      · exact hsp.order_eq
      · exact hsp.queue_eq
      · exact hsp.nodup
      · intro m hm
        obtain ⟨h1, h2, h3⟩ := hsp.mem m hm
        exact ⟨by simp [h1], h2, h3⟩
      · intro m hm
        rcases List.mem_cons.mp hm with rfl | hm'
        · exact (hsp.vis_iff m).mpr (Or.inl h)
        · exact hsp.covered m hm'
      · exact hsp.vis_iff
      · exact hsp.untouched
      · exact hsp.fresh_data
      · exact hsp.count
    · have hfalse : st.visited.getD n true = false := by
        cases hv : st.visited.getD n true
        · rfl
        · exact absurd hv h
      have hn_lt : n < st.visited.length := lt_length_of_getD_set _ _ hfalse
      have hcn : current ≠ n := by
        intro he
        rw [← he] at hfalse
        unfold visB at hc
        rw [hc] at hfalse
        exact Bool.noConfusion hfalse
      set st' : BfsState :=
        { st with
          visited := st.visited.set n true
          parent := st.parent.set n (current : Int)
          level := st.level.set n (st.level.getD current (-1) + 1)
          queue := st.queue ++ [n] } with hst'
      have hstep : visitStep current n st = st' := by
        unfold visitStep
        rw [if_neg h]
      have hrw : visitNeighbors current (n :: ns) st = visitNeighbors current ns st' := by
        have heq : visitNeighbors current (n :: ns) st
            = visitNeighbors current ns (visitStep current n st) := rfl
        rw [heq, hstep]
      have hc' : visB st' current = true := by
        unfold visB
        simp only [hst']
        rw [getD_set_ne _ _ _ _ _ (fun he => hcn he.symm)]
        exact hc
      have hP' : st'.parent.length = st'.visited.length := by
        simp only [hst', List.length_set]
        exact hP
      have hL' : st'.level.length = st'.visited.length := by
        simp only [hst', List.length_set]
        exact hL
      obtain ⟨fresh', hsp⟩ := ih st' hc' hP' hL'
      rw [hrw]
      set r := visitNeighbors current ns st' with hr
      have hvis_st'_n : visB st' n = true := by
        unfold visB
        simp only [hst']
        exact getD_set_self _ _ _ _ hn_lt
      have hn_not_fresh' : n ∉ fresh' := by
        intro hmem
        obtain ⟨_, h2, _⟩ := hsp.mem n hmem
        rw [hvis_st'_n] at h2
        exact Bool.noConfusion h2
      have hvis_st'_eq : ∀ v, v ≠ n → visB st' v = visB st v := by
        intro v hv
        unfold visB
        simp only [hst']
        exact getD_set_ne _ _ _ _ _ (fun he => hv he.symm)
      have hlvl_st'_eq : ∀ v, v ≠ n → lvlB st' v = lvlB st v := by
        intro v hv
        unfold lvlB
        simp only [hst']
        exact getD_set_ne _ _ _ _ _ (fun he => hv he.symm)
      have hpar_st'_eq : ∀ v, v ≠ n → parB st' v = parB st v := by
        intro v hv
        unfold parB
        simp only [hst']
        exact getD_set_ne _ _ _ _ _ (fun he => hv he.symm)
      refine ⟨n :: fresh', ?_⟩
      constructor
      · rw [hsp.lenV]; simp [hst']
      · rw [hsp.lenP]; simp [hst']
      · rw [hsp.lenL]; simp [hst']
      · rw [hsp.order_eq]
      · rw [hsp.queue_eq]
        simp [hst']
      · exact List.nodup_cons.mpr ⟨hn_not_fresh', hsp.nodup⟩
      · intro m hm
        rcases List.mem_cons.mp hm with rfl | hm'
        · exact ⟨by simp, hfalse, hn_lt⟩
        · obtain ⟨h1, h2, h3⟩ := hsp.mem m hm'
          have hmn : m ≠ n := by
            intro he
            rw [he, hvis_st'_n] at h2
            exact Bool.noConfusion h2
          refine ⟨by simp [h1], ?_, ?_⟩
          · rw [← hvis_st'_eq m hmn]; exact h2
          · simpa [hst'] using h3
      · intro m hm
        rcases List.mem_cons.mp hm with rfl | hm'
        · exact (hsp.vis_iff m).mpr (Or.inl hvis_st'_n)
        · exact hsp.covered m hm'
      · intro v
        rw [hsp.vis_iff v]
        by_cases hv : v = n
        · subst hv
          simp [hvis_st'_n]
        · rw [hvis_st'_eq v hv]
          simp only [List.mem_cons]
          constructor
          · rintro (h1 | h2)
            · exact Or.inl h1
            · exact Or.inr (Or.inr h2)
          · rintro (h1 | rfl | h2)
            · exact Or.inl h1
            · exact absurd rfl hv
            · exact Or.inr h2
      · intro v hv
        have hvn : v ≠ n := fun he => hv (by simp [he])
        have hvf : v ∉ fresh' := fun he => hv (by simp [he])
        obtain ⟨h1, h2, h3⟩ := hsp.untouched v hvf
        exact ⟨by rw [h1, hvis_st'_eq v hvn],
               by rw [h2, hlvl_st'_eq v hvn],
               by rw [h3, hpar_st'_eq v hvn]⟩
      · intro m hm
        rcases List.mem_cons.mp hm with rfl | hm'
        · obtain ⟨h1, h2, h3⟩ := hsp.untouched m hn_not_fresh'
          constructor
          · rw [h2]
            unfold lvlB
            simp only [hst']
            rw [getD_set_self _ _ _ _ (by rw [hL]; exact hn_lt)]
          · rw [h3]
            unfold parB
            simp only [hst']
            rw [getD_set_self _ _ _ _ (by rw [hP]; exact hn_lt)]
        · obtain ⟨h1, h2⟩ := hsp.fresh_data m hm'
          constructor
          · rw [h1, hlvl_st'_eq current hcn]
          · exact h2
      · rw [hsp.count]
        have : countTrue st'.visited = countTrue st.visited + 1 := by
          simp only [hst']
          exact countTrue_set_true _ _ hfalse
        rw [this]
        simp
        omega

/-! ### The loop invariant of bfs -/

/-- Invariant of the bfs while loop for graph g and source s.  It
records the array lengths, the correspondence between the visited flags
and membership in the traversal order or queue, the layering facts (the
queue levels are sorted and span at most two consecutive values, the
order levels are sorted and bounded by the queue levels), the parent
links, and that every neighbor of an already processed vertex is visited
with a level exceeding its own by at most one. -/
structure BfsInv (g : Graph) (s : Nat) (st : BfsState) : Prop where
  lenV : st.visited.length = g.V
  lenP : st.parent.length = g.V
  lenL : st.level.length = g.V
  sLt : s < g.V
  sMem : s ∈ st.order ∨ s ∈ st.queue
  sLvl : lvlB st s = 0
  sPar : parB st s = -1
  orderLt : ∀ v ∈ st.order, v < g.V
  queueLt : ∀ v ∈ st.queue, v < g.V
  visIff : ∀ v, v < g.V → (visB st v = true ↔ v ∈ st.order ∨ v ∈ st.queue)
  nodup : (st.order ++ st.queue).Nodup
  unvisData : ∀ v, v < g.V → visB st v = false → lvlB st v = -1 ∧ parB st v = -1
  visReach : ∀ v, v < g.V → visB st v = true → ∃ d : Nat, lvlB st v = d ∧ Reach g s v d
  lvlBound : ∀ v, v < g.V → visB st v = true → lvlB st v < (countTrue st.visited : Int)
  parQueue : ∀ v ∈ st.queue, v ≠ s → ∃ p : Nat, parB st v = p ∧ p ∈ st.order ∧ lvlB st v = lvlB st p + 1
  parOrder : ∀ v ∈ st.order, v ≠ s → ∃ p : Nat, parB st v = p ∧ [p, v].Sublist st.order ∧ lvlB st v = lvlB st p + 1
  nbrClosed : ∀ u ∈ st.order, ∀ v ∈ g.nbrs u, visB st v = true ∧ lvlB st v ≤ lvlB st u + 1
  queueSorted : (st.queue.map (lvlB st)).Pairwise (· ≤ ·)
  queueGap : ∀ a ∈ st.queue, ∀ b ∈ st.queue, lvlB st b ≤ lvlB st a + 1
  orderSorted : (st.order.map (lvlB st)).Pairwise (· ≤ ·)
  orderQueue : ∀ a ∈ st.order, ∀ b ∈ st.queue, lvlB st a ≤ lvlB st b

theorem inv_init (g : Graph) (s : Nat) (hs : s < g.V) : BfsInv g s (bfsInit g s) := by
  have hvis : ∀ v, visB (bfsInit g s) v = true ↔ v = s ∨ ¬ v < g.V := by
    intro v
    unfold visB bfsInit
    by_cases hv : v = s
    · subst hv
      simp only []
      rw [getD_set_self _ _ _ _ (by simp [List.length_replicate]; omega)]
      simp
    · simp only []
      rw [getD_set_ne _ _ _ _ _ (fun he => hv he.symm)]
      by_cases hlt : v < g.V
      · rw [getD_replicate_lt _ _ _ _ hlt]
        simp [hv, hlt]
      · rw [getD_ge_length _ _ _ (by simp [List.length_replicate]; omega)]
        simp [hv, hlt]
  have hlvl : lvlB (bfsInit g s) s = 0 := by
    unfold lvlB bfsInit
    simp only []
    rw [getD_set_self _ _ _ _ (by simp [List.length_replicate]; omega)]
  have hlvlv : ∀ v, v ≠ s → lvlB (bfsInit g s) v = -1 := by
    intro v hv
    unfold lvlB bfsInit
    simp only []
    rw [getD_set_ne _ _ _ _ _ (fun he => hv he.symm)]
    by_cases hlt : v < g.V
    · exact getD_replicate_lt _ _ _ _ hlt
    · exact getD_ge_length _ _ _ (by simp [List.length_replicate]; omega)
  have hpar : ∀ v, parB (bfsInit g s) v = -1 := by
    intro v
    unfold parB bfsInit
    simp only []
    by_cases hlt : v < g.V
    · exact getD_replicate_lt _ _ _ _ hlt
    · exact getD_ge_length _ _ _ (by simp [List.length_replicate]; omega)
  have hcount : countTrue (bfsInit g s).visited = 1 := by
    unfold bfsInit countTrue
    simp only []
    have h0 : countTrue (List.replicate g.V false) = 0 := by
      unfold countTrue
      simp [List.count_replicate]
    have := countTrue_set_true (List.replicate g.V false) s
      (getD_replicate_lt _ _ _ _ hs)
    unfold countTrue at this h0
    rw [this, h0]
  constructor
  case lenV => simp [bfsInit]
  case lenP => simp [bfsInit]
  case lenL => simp [bfsInit]
  case sLt => exact hs
  case sMem => exact Or.inr (by simp [bfsInit])
  case sLvl => exact hlvl
  case sPar => exact hpar s
  case orderLt => simp [bfsInit]
  case queueLt => simp [bfsInit]; omega
  case visIff =>
    intro v hv
    rw [hvis v]
    show _ ↔ v ∈ ([] : List Nat) ∨ v ∈ [s]
    simp only [List.mem_singleton, List.not_mem_nil, false_or]
    constructor
    · rintro (rfl | hc)
      · rfl
      · exact absurd hv hc
    · intro h
      exact Or.inl h
  case nodup => simp [bfsInit]
  case unvisData =>
    intro v hv hfalse
    have : ¬ (v = s ∨ ¬ v < g.V) := by
      intro hc
      rw [← hvis v] at hc
      rw [hfalse] at hc
      exact Bool.noConfusion hc
    push_neg at this
    exact ⟨hlvlv v this.1, hpar v⟩
  case visReach =>
    intro v hv htrue
    rcases (hvis v).mp htrue with rfl | hc
    · exact ⟨0, hlvl, Reach.refl⟩
    · exact absurd hv hc
  case lvlBound =>
    intro v hv htrue
    rcases (hvis v).mp htrue with rfl | hc
    · rw [hlvl, hcount]
      omega
    · exact absurd hv hc
  case parQueue =>
    intro v hv hne
    simp [bfsInit] at hv
    exact absurd hv hne
  case parOrder => simp [bfsInit]
  case nbrClosed => simp [bfsInit]
  case queueSorted => simp [bfsInit]
  case queueGap =>
    intro a ha b hb
    simp [bfsInit] at ha hb
    subst ha; subst hb
    rw [hlvl]
    omega
  case orderSorted => simp [bfsInit]
  case orderQueue => simp [bfsInit]

/-! ### Preservation of the invariant by one loop iteration -/

theorem inv_step (g : Graph) (s : Nat) (hg : g.InRange) (st : BfsState)
    (hinv : BfsInv g s st) (c : Nat) (rest : List Nat) (hq : st.queue = c :: rest) :
    BfsInv g s (visitNeighbors c (g.nbrs c)
      { st with order := st.order ++ [c], queue := rest }) ∧
    (visitNeighbors c (g.nbrs c)
      { st with order := st.order ++ [c], queue := rest }).queue.length +
      ((visitNeighbors c (g.nbrs c)
        { st with order := st.order ++ [c], queue := rest }).visited.length -
        countTrue (visitNeighbors c (g.nbrs c)
          { st with order := st.order ++ [c], queue := rest }).visited) + 1 =
    st.queue.length + (st.visited.length - countTrue st.visited) := by
  set st1 : BfsState := { st with order := st.order ++ [c], queue := rest } with hst1
  have hcq : c ∈ st.queue := by rw [hq]; exact List.mem_cons_self c rest
  have hcV : c < g.V := hinv.queueLt c hcq
  have hcvis : visB st c = true := (hinv.visIff c hcV).mpr (Or.inr hcq)
  obtain ⟨dc, hdc, hreach_c⟩ := hinv.visReach c hcV hcvis
  have hP1 : st1.parent.length = st1.visited.length := by
    show st.parent.length = st.visited.length
    rw [hinv.lenP, hinv.lenV]
  have hL1 : st1.level.length = st1.visited.length := by
    show st.level.length = st.visited.length
    rw [hinv.lenL, hinv.lenV]
  obtain ⟨fresh, sp⟩ := visitNeighbors_spec c (g.nbrs c) st1 hcvis hP1 hL1
  set r := visitNeighbors c (g.nbrs c) st1 with hr
  have hq_r : r.queue = rest ++ fresh := sp.queue_eq
  have ho_r : r.order = st.order ++ [c] := sp.order_eq
  have hlenV_r : r.visited.length = g.V := by
    rw [sp.lenV]; exact hinv.lenV
  have hfreshNotVis : ∀ n ∈ fresh, visB st n = false :=
    fun n hn => (sp.mem n hn).2.1
  have hfreshNbr : ∀ n ∈ fresh, n ∈ g.nbrs c :=
    fun n hn => (sp.mem n hn).1
  have hfreshLt : ∀ n ∈ fresh, n < g.V := by
    intro n hn
    have h := (sp.mem n hn).2.2
    have : st1.visited.length = g.V := hinv.lenV
    omega
  have hVisNotFresh : ∀ v, visB st v = true → v ∉ fresh := by
    intro v hv hmem
    rw [hfreshNotVis v hmem] at hv
    exact Bool.noConfusion hv
  have hUnt : ∀ v, visB st v = true →
      visB r v = visB st v ∧ lvlB r v = lvlB st v ∧ parB r v = parB st v :=
    fun v hv => sp.untouched v (hVisNotFresh v hv)
  have hOrderVis : ∀ v ∈ st.order, visB st v = true :=
    fun v hv => (hinv.visIff v (hinv.orderLt v hv)).mpr (Or.inl hv)
  have hQueueVis : ∀ v ∈ st.queue, visB st v = true :=
    fun v hv => (hinv.visIff v (hinv.queueLt v hv)).mpr (Or.inr hv)
  have hVisMono : ∀ v, visB st v = true → visB r v = true :=
    fun v hv => (sp.vis_iff v).mpr (Or.inl hv)
  have hFreshLvl : ∀ n ∈ fresh, lvlB r n = lvlB st c + 1 :=
    fun n hn => (sp.fresh_data n hn).1
  have hFreshPar : ∀ n ∈ fresh, parB r n = (c : Int) :=
    fun n hn => (sp.fresh_data n hn).2
  have hQS := hinv.queueSorted
  rw [hq, List.map_cons] at hQS
  obtain ⟨hHeadLe, hTailSorted⟩ := List.pairwise_cons.mp hQS
  have hHeadLe' : ∀ b ∈ rest, lvlB st c ≤ lvlB st b := by
    intro b hb
    exact hHeadLe (lvlB st b) (List.mem_map.mpr ⟨b, hb, rfl⟩)
  have hRestQueue : ∀ b ∈ rest, b ∈ st.queue := by
    intro b hb; rw [hq]; exact List.mem_cons_of_mem c hb
  refine ⟨?_, ?_⟩
  · constructor
    case lenV => exact hlenV_r
    case lenP => rw [sp.lenP]; exact hinv.lenP
    case lenL => rw [sp.lenL]; exact hinv.lenL
    case sLt => exact hinv.sLt
    case sMem =>
      rw [ho_r, hq_r]
      rcases hinv.sMem with hso | hsq
      · exact Or.inl (List.mem_append.mpr (Or.inl hso))
      · rw [hq] at hsq
        rcases List.mem_cons.mp hsq with rfl | hsr
        · exact Or.inl (List.mem_append.mpr (Or.inr (by simp)))
        · exact Or.inr (List.mem_append.mpr (Or.inl hsr))
    case sLvl =>
      have hsvis : visB st s = true := by
        rcases hinv.sMem with h | h
        · exact hOrderVis s h
        · exact hQueueVis s h
      rw [(hUnt s hsvis).2.1]
      exact hinv.sLvl
    case sPar =>
      have hsvis : visB st s = true := by
        rcases hinv.sMem with h | h
        · exact hOrderVis s h
        · exact hQueueVis s h
      rw [(hUnt s hsvis).2.2]
      exact hinv.sPar
    case orderLt =>
      intro v hv
      rw [ho_r] at hv
      rcases List.mem_append.mp hv with h | h
      · exact hinv.orderLt v h
      · rw [List.mem_singleton.mp h]; exact hcV
    case queueLt =>
      intro v hv
      rw [hq_r] at hv
      rcases List.mem_append.mp hv with h | h
      · exact hinv.queueLt v (hRestQueue v h)
      · exact hfreshLt v h
    case visIff =>
      intro v hv
      have h0 : visB st1 v = visB st v := rfl
      rw [sp.vis_iff v, h0, hinv.visIff v hv, ho_r, hq_r, hq]
      simp only [List.mem_append, List.mem_cons, List.mem_singleton,
        List.not_mem_nil, or_false]
      tauto
    case nodup =>
      rw [ho_r, hq_r]
      have hassoc : (st.order ++ [c]) ++ (rest ++ fresh)
          = (st.order ++ c :: rest) ++ fresh := by
        simp
      rw [hassoc]
      rw [List.nodup_append]
      refine ⟨by rw [← hq]; exact hinv.nodup, sp.nodup, ?_⟩
      intro x hx hxf
      have hxvis : visB st x = true := by
        rcases List.mem_append.mp hx with h | h
        · exact hOrderVis x h
        · exact hQueueVis x (by rw [hq]; exact h)
      exact hVisNotFresh x hxvis hxf
    case unvisData =>
      intro v hv hfalse
      have hnf : v ∉ fresh := by
        intro hmem
        have := (sp.vis_iff v).mpr (Or.inr hmem)
        rw [hfalse] at this
        exact Bool.noConfusion this
      have hstf : visB st v = false := by
        cases hvv : visB st v
        · rfl
        · rw [(hUnt v hvv).1, hvv] at hfalse
          exact Bool.noConfusion hfalse
      obtain ⟨h1, h2⟩ := hinv.unvisData v hv hstf
      obtain ⟨_, hl, hp⟩ := sp.untouched v hnf
      exact ⟨by rw [hl]; exact h1, by rw [hp]; exact h2⟩
    case visReach =>
      intro v hv htrue
      rcases (sp.vis_iff v).mp htrue with hold | hnew
      · obtain ⟨d, hd, hre⟩ := hinv.visReach v hv hold
        exact ⟨d, by rw [(hUnt v hold).2.1]; exact hd, hre⟩
      · refine ⟨dc + 1, ?_, Reach.step hreach_c (hfreshNbr v hnew)⟩
        rw [hFreshLvl v hnew, hdc]
        push_cast
        ring
    case lvlBound =>
      intro v hv htrue
      have hcount : countTrue r.visited = countTrue st.visited + fresh.length :=
        sp.count
      rcases (sp.vis_iff v).mp htrue with hold | hnew
      · rw [(hUnt v hold).2.1, hcount]
        have := hinv.lvlBound v hv hold
        have hle : (countTrue st.visited : Int) ≤ (countTrue st.visited + fresh.length : Nat) := by
          push_cast; omega
        omega
      · rw [hFreshLvl v hnew, hdc, hcount]
        have hlen1 : 1 ≤ fresh.length := by
          cases fresh with
          | nil => simp at hnew
          | cons a t => simp
        have := hinv.lvlBound c hcV hcvis
        rw [hdc] at this
        push_cast
        omega
    case parQueue =>
      intro v hv hne
      rw [hq_r] at hv
      rcases List.mem_append.mp hv with hvr | hvf
      · obtain ⟨p, hp1, hp2, hp3⟩ := hinv.parQueue v (hRestQueue v hvr) hne
        have hvvis : visB st v = true := hQueueVis v (hRestQueue v hvr)
        have hpvis : visB st p = true := hOrderVis p hp2
        refine ⟨p, ?_, ?_, ?_⟩
        · rw [(hUnt v hvvis).2.2]; exact hp1
        · rw [ho_r]; exact List.mem_append.mpr (Or.inl hp2)
        · rw [(hUnt v hvvis).2.1, (hUnt p hpvis).2.1]; exact hp3
      · refine ⟨c, hFreshPar v hvf, ?_, ?_⟩
        · rw [ho_r]; exact List.mem_append.mpr (Or.inr (by simp))
        · rw [hFreshLvl v hvf, (hUnt c hcvis).2.1]
    case parOrder =>
      intro v hv hne
      rw [ho_r] at hv
      rcases List.mem_append.mp hv with hvo | hvc
      · obtain ⟨p, hp1, hp2, hp3⟩ := hinv.parOrder v hvo hne
        have hvvis : visB st v = true := hOrderVis v hvo
        have hpmem : p ∈ st.order := by
          have := hp2.subset
          exact this (by simp)
        have hpvis : visB st p = true := hOrderVis p hpmem
        refine ⟨p, ?_, ?_, ?_⟩
        · rw [(hUnt v hvvis).2.2]; exact hp1
        · rw [ho_r]
          exact hp2.trans (List.sublist_append_left _ _)
        · rw [(hUnt v hvvis).2.1, (hUnt p hpvis).2.1]; exact hp3
      · rw [List.mem_singleton.mp hvc] at hne ⊢
        obtain ⟨p, hp1, hp2, hp3⟩ := hinv.parQueue c hcq hne
        have hpvis : visB st p = true := hOrderVis p hp2
        refine ⟨p, ?_, ?_, ?_⟩
        · rw [(hUnt c hcvis).2.2]; exact hp1
        · rw [ho_r]
          have h1 : List.Sublist [p] st.order := List.singleton_sublist.mpr hp2
          have h2 : List.Sublist [c] [c] := List.Sublist.refl [c]
          exact h1.append h2
        · rw [(hUnt c hcvis).2.1, (hUnt p hpvis).2.1]; exact hp3
    case nbrClosed =>
      intro u hu v hv
      rw [ho_r] at hu
      rcases List.mem_append.mp hu with huo | huc
      · obtain ⟨h1, h2⟩ := hinv.nbrClosed u huo v hv
        have huvis : visB st u = true := hOrderVis u huo
        have hvnf : v ∉ fresh := hVisNotFresh v h1
        refine ⟨hVisMono v h1, ?_⟩
        rw [(sp.untouched v hvnf).2.1, (hUnt u huvis).2.1]
        exact h2
      · have huc' : u = c := List.mem_singleton.mp huc
        rw [huc'] at hv ⊢
        refine ⟨sp.covered v hv, ?_⟩
        rw [(hUnt c hcvis).2.1]
        by_cases hvf : v ∈ fresh
        · rw [hFreshLvl v hvf]
        · have hvr : visB r v = true := sp.covered v hv
          have hvst : visB st v = true := by
            rcases (sp.vis_iff v).mp hvr with h | h
            · exact h
            · exact absurd h hvf
          rw [(hUnt v hvst).2.1]
          have hvV : v < g.V := g.nbrs_lt hg c v hv
          rcases (hinv.visIff v hvV).mp hvst with hvo | hvq
          · have := hinv.orderQueue v hvo c hcq
            omega
          · rw [hq] at hvq
            rcases List.mem_cons.mp hvq with rfl | hvrest
            · omega
            · have := hinv.queueGap c hcq v (hRestQueue v hvrest)
              omega
    case queueSorted =>
      rw [hq_r, List.map_append]
      rw [List.pairwise_append]
      refine ⟨?_, ?_, ?_⟩
      · have hmapeq : rest.map (lvlB r) = rest.map (lvlB st) := by
          apply List.map_congr_left
          intro x hx
          exact (hUnt x (hQueueVis x (hRestQueue x hx))).2.1
        rw [hmapeq]
        exact hTailSorted
      · exact pairwise_map_const_le fresh (lvlB r) (lvlB st c + 1) hFreshLvl
      · intro a ha b hb
        obtain ⟨x, hx, rfl⟩ := List.mem_map.mp ha
        obtain ⟨y, hy, rfl⟩ := List.mem_map.mp hb
        rw [(hUnt x (hQueueVis x (hRestQueue x hx))).2.1, hFreshLvl y hy]
        have := hHeadLe' x hx
        have := hinv.queueGap c hcq x (hRestQueue x hx)
        omega
    case queueGap =>
      intro a ha b hb
      rw [hq_r] at ha hb
      rcases List.mem_append.mp ha with har | haf <;>
        rcases List.mem_append.mp hb with hbr | hbf
      · rw [(hUnt a (hQueueVis a (hRestQueue a har))).2.1,
          (hUnt b (hQueueVis b (hRestQueue b hbr))).2.1]
        exact hinv.queueGap a (hRestQueue a har) b (hRestQueue b hbr)
      · rw [(hUnt a (hQueueVis a (hRestQueue a har))).2.1, hFreshLvl b hbf]
        have := hHeadLe' a har
        omega
      · rw [hFreshLvl a haf, (hUnt b (hQueueVis b (hRestQueue b hbr))).2.1]
        have := hinv.queueGap c hcq b (hRestQueue b hbr)
        omega
      · rw [hFreshLvl a haf, hFreshLvl b hbf]
        omega
    case orderSorted =>
      rw [ho_r, List.map_append]
      rw [List.pairwise_append]
      refine ⟨?_, ?_, ?_⟩
      · have hmapeq : st.order.map (lvlB r) = st.order.map (lvlB st) := by
          apply List.map_congr_left
          intro x hx
          exact (hUnt x (hOrderVis x hx)).2.1
        rw [hmapeq]
        exact hinv.orderSorted
      · simp
      · intro a ha b hb
        obtain ⟨x, hx, rfl⟩ := List.mem_map.mp ha
        simp only [List.map_cons, List.map_nil, List.mem_singleton] at hb
        subst hb
        rw [(hUnt x (hOrderVis x hx)).2.1, (hUnt c hcvis).2.1]
        exact hinv.orderQueue x hx c hcq
    case orderQueue =>
      intro a ha b hb
      rw [ho_r] at ha
      rw [hq_r] at hb
      rcases List.mem_append.mp ha with hao | hac <;>
        rcases List.mem_append.mp hb with hbr | hbf
      · rw [(hUnt a (hOrderVis a hao)).2.1,
          (hUnt b (hQueueVis b (hRestQueue b hbr))).2.1]
        exact hinv.orderQueue a hao b (hRestQueue b hbr)
      · rw [(hUnt a (hOrderVis a hao)).2.1, hFreshLvl b hbf]
        have := hinv.orderQueue a hao c hcq
        omega
      · rw [List.mem_singleton.mp hac]
        rw [(hUnt c hcvis).2.1,
          (hUnt b (hQueueVis b (hRestQueue b hbr))).2.1]
        exact hHeadLe' b hbr
      · rw [List.mem_singleton.mp hac]
        rw [(hUnt c hcvis).2.1, hFreshLvl b hbf]
        omega
  · have h1 : r.queue.length = rest.length + fresh.length := by
      rw [hq_r, List.length_append]
    have h2 : countTrue r.visited = countTrue st.visited + fresh.length := sp.count
    have h3 : r.visited.length = st.visited.length := sp.lenV
    have h4 : countTrue r.visited ≤ r.visited.length := countTrue_le_length _
    have h5 : st.queue.length = rest.length + 1 := by rw [hq]; simp
    omega

/-! ### Running the loop: the invariant holds at the end, with fuel V + 1 -/

theorem bfsLoop_run (g : Graph) (s : Nat) (hg : g.InRange) :
    ∀ fuel st, BfsInv g s st →
      st.queue.length + (st.visited.length - countTrue st.visited) ≤ fuel →
      ∃ st', bfsLoop g fuel st = some st' ∧ BfsInv g s st' ∧ st'.queue = [] := by
  intro fuel
  induction fuel with
  | zero =>
    intro st hinv hm
    have hq : st.queue = [] := by
      cases hql : st.queue with
      | nil => rfl
      | cons c rest =>
        rw [hql] at hm
        simp at hm
    refine ⟨st, ?_, hinv, hq⟩
    unfold bfsLoop
    rw [hq]
  | succ fuel ih =>
    intro st hinv hm
    cases hql : st.queue with
    | nil =>
      refine ⟨st, ?_, hinv, hql⟩
      unfold bfsLoop
      rw [hql]
    | cons c rest =>
      obtain ⟨hinv', hmeas⟩ := inv_step g s hg st hinv c rest hql
      set r := visitNeighbors c (g.nbrs c)
        { st with order := st.order ++ [c], queue := rest } with hr
      have hm' : r.queue.length + (r.visited.length - countTrue r.visited) ≤ fuel := by
        omega
      obtain ⟨st', h1, h2, h3⟩ := ih r hinv' hm'
      refine ⟨st', ?_, h2, h3⟩
      unfold bfsLoop
      rw [hql]
      exact h1

theorem bfs_master (g : Graph) (s : Nat) (hg : g.InRange) (hs : s < g.V) :
    ∃ st', bfsLoop g (g.V + 1) (bfsInit g s) = some st' ∧ BfsInv g s st' ∧
      st'.queue = [] ∧ g.bfs s = some (st'.order, st'.level, st'.parent) := by
  have hinv := inv_init g s hs
  have hcount : countTrue (bfsInit g s).visited = 1 := by
    unfold bfsInit countTrue
    simp only []
    have h0 : (List.replicate g.V false).count true = 0 := by
      simp [List.count_replicate]
    have := countTrue_set_true (List.replicate g.V false) s
      (getD_replicate_lt _ _ _ _ hs)
    unfold countTrue at this
    rw [this, h0]
  have hm : (bfsInit g s).queue.length +
      ((bfsInit g s).visited.length - countTrue (bfsInit g s).visited) ≤ g.V + 1 := by
    rw [hcount]
    have : (bfsInit g s).visited.length = g.V := by simp [bfsInit]
    rw [this]
    simp [bfsInit]
    omega
  obtain ⟨st', h1, h2, h3⟩ := bfsLoop_run g s hg (g.V + 1) (bfsInit g s) hinv hm
  refine ⟨st', h1, h2, h3, ?_⟩
  unfold Graph.bfs
  rw [h1]
  rfl

/-! ### Facts at loop exit -/

theorem final_reach_mem (g : Graph) (s : Nat) (hg : g.InRange) (st : BfsState)
    (hinv : BfsInv g s st) (hq : st.queue = []) :
    ∀ v m, Reach g s v m → v ∈ st.order ∧ lvlB st v ≤ (m : Int) := by
  intro v m h
  induction h with
  | refl =>
    have hs : s ∈ st.order := by
      rcases hinv.sMem with h | h
      · exact h
      · rw [hq] at h; simp at h
    exact ⟨hs, by rw [hinv.sLvl]; simp⟩
  | step hru hnb ih =>
    obtain ⟨hmem, hlvl⟩ := ih
    obtain ⟨hvis, hle⟩ := hinv.nbrClosed _ hmem _ hnb
    rename_i u v' n
    have hvV : v' < g.V := g.nbrs_lt hg u v' hnb
    have hmem' : v' ∈ st.order := by
      rcases (hinv.visIff v' hvV).mp hvis with h | h
      · exact h
      · rw [hq] at h; simp at h
    refine ⟨hmem', ?_⟩
    push_cast
    omega

theorem final_mem_reach (g : Graph) (s : Nat) (st : BfsState)
    (hinv : BfsInv g s st) :
    ∀ v ∈ st.order, ∃ d : Nat, lvlB st v = d ∧ Reach g s v d := by
  intro v hv
  have hvV : v < g.V := hinv.orderLt v hv
  exact hinv.visReach v hvV ((hinv.visIff v hvV).mpr (Or.inl hv))

/-! ### Claim theorems about bfs -/

/-- C1: for every in-range graph and start vertex in range, and every
vertex v reachable from start, the level array returned by bfs satisfies
that level of v is the edge count of a shortest path from start to v,
and the level of start is 0. -/
theorem bfs_level_shortest (g : Graph) (s : Nat) (hg : g.InRange) (hs : s < g.V) :
    ∃ ord lvl par, g.bfs s = some (ord, lvl, par) ∧
      lvl.getD s (-1) = 0 ∧
      ∀ v, (∃ n, Reach g s v n) →
        ∃ d : Nat, lvl.getD v (-1) = (d : Int) ∧ Reach g s v d ∧
          ∀ m, Reach g s v m → d ≤ m := by
  obtain ⟨st', h1, hinv, hq, hbfs⟩ := bfs_master g s hg hs
  refine ⟨st'.order, st'.level, st'.parent, hbfs, hinv.sLvl, ?_⟩
  rintro v ⟨n, hn⟩
  obtain ⟨hmem, _⟩ := final_reach_mem g s hg st' hinv hq v n hn
  obtain ⟨d, hd, hrd⟩ := final_mem_reach g s st' hinv v hmem
  refine ⟨d, hd, hrd, ?_⟩
  intro m hm
  obtain ⟨_, hle⟩ := final_reach_mem g s hg st' hinv hq v m hm
  rw [hd] at hle
  exact_mod_cast hle

theorem bfs_level_shortest_witness :
    ∃ ord lvl par, exGraph.bfs 0 = some (ord, lvl, par) ∧
      lvl.getD 0 (-1) = 0 ∧
      ∀ v, (∃ n, Reach exGraph 0 v n) →
        ∃ d : Nat, lvl.getD v (-1) = (d : Int) ∧ Reach exGraph 0 v d ∧
          ∀ m, Reach exGraph 0 v m → d ≤ m :=
  bfs_level_shortest exGraph 0 (by decide) (by decide)

/-- C2: for every in-range graph and start in range, the traversal order
returned by bfs contains exactly the reachable vertices, each exactly
once, in non-decreasing order of level, and every vertex outside the
traversal order has level and parent equal to the sentinel -1. -/
theorem bfs_visit_order (g : Graph) (s : Nat) (hg : g.InRange) (hs : s < g.V) :
    ∃ ord lvl par, g.bfs s = some (ord, lvl, par) ∧
      ord.Nodup ∧
      (∀ v, v ∈ ord ↔ ∃ n, Reach g s v n) ∧
      (ord.map fun v => lvl.getD v (-1)).Pairwise (· ≤ ·) ∧
      (∀ v, v < g.V → v ∉ ord → lvl.getD v (-1) = -1 ∧ par.getD v (-1) = -1) := by
  obtain ⟨st', h1, hinv, hq, hbfs⟩ := bfs_master g s hg hs
  refine ⟨st'.order, st'.level, st'.parent, hbfs, ?_, ?_, ?_, ?_⟩
  · have hnd := hinv.nodup
    rw [hq] at hnd
    simpa using hnd
  · intro v
    constructor
    · intro hv
      obtain ⟨d, _, hrd⟩ := final_mem_reach g s st' hinv v hv
      exact ⟨d, hrd⟩
    · rintro ⟨n, hn⟩
      exact (final_reach_mem g s hg st' hinv hq v n hn).1
  · exact hinv.orderSorted
  · intro v hv hnot
    have hvis : visB st' v = false := by
      cases hvv : visB st' v
      · rfl
      · have hmem := (hinv.visIff v hv).mp hvv
        rw [hq] at hmem
        rcases hmem with h | h
        · exact absurd h hnot
        · simp at h
    exact hinv.unvisData v hv hvis

theorem bfs_visit_order_witness :
    ∃ ord lvl par, exGraph.bfs 0 = some (ord, lvl, par) ∧
      ord.Nodup ∧
      (∀ v, v ∈ ord ↔ ∃ n, Reach exGraph 0 v n) ∧
      (ord.map fun v => lvl.getD v (-1)).Pairwise (· ≤ ·) ∧
      (∀ v, v < exGraph.V → v ∉ ord →
        lvl.getD v (-1) = -1 ∧ par.getD v (-1) = -1) :=
  bfs_visit_order exGraph 0 (by decide) (by decide)

/-- C3: for every in-range graph, start in range, and vertex v in the
traversal order other than start, the level of v is the level of its
parent plus one, and the parent occurs earlier than v in the traversal
order (expressed as the two-element sublist relation). -/
theorem bfs_parent_links (g : Graph) (s : Nat) (hg : g.InRange) (hs : s < g.V) :
    ∃ ord lvl par, g.bfs s = some (ord, lvl, par) ∧
      ∀ v ∈ ord, v ≠ s →
        ∃ p : Nat, par.getD v (-1) = (p : Int) ∧
          lvl.getD v (-1) = lvl.getD p (-1) + 1 ∧
          List.Sublist [p, v] ord := by
  obtain ⟨st', h1, hinv, hq, hbfs⟩ := bfs_master g s hg hs
  refine ⟨st'.order, st'.level, st'.parent, hbfs, ?_⟩
  intro v hv hne
  obtain ⟨p, hp1, hp2, hp3⟩ := hinv.parOrder v hv hne
  exact ⟨p, hp1, hp3, hp2⟩

theorem bfs_parent_links_witness :
    ∃ ord lvl par, exGraph.bfs 0 = some (ord, lvl, par) ∧
      ∀ v ∈ ord, v ≠ 0 →
        ∃ p : Nat, par.getD v (-1) = (p : Int) ∧
          lvl.getD v (-1) = lvl.getD p (-1) + 1 ∧
          List.Sublist [p, v] ord :=
  bfs_parent_links exGraph 0 (by decide) (by decide)

/-! ### The backward parent walk -/

theorem parentWalk_step (parent : List Int) (f : Nat) (v : Nat) :
    parentWalk parent (f + 1) (v : Int)
      = match parentWalk parent f (parent.getD v (-1)) with
        | none => none
        | some w => some ((v : Int) :: w) := by
  have h1 : parentWalk parent (f + 1) (v : Int)
      = if (v : Int) = -1 then some []
        else match parentWalk parent f (parent.getD ((v : Int)).toNat (-1)) with
          | none => none
          | some w => some ((v : Int) :: w) := rfl
  rw [h1, if_neg (by omega)]
  have h2 : ((v : Int)).toNat = v := Int.toNat_natCast v
  rw [h2]

theorem parentWalk_neg_one (parent : List Int) (f : Nat) :
    parentWalk parent (f + 1) (-1) = some [] := by
  unfold parentWalk
  rw [if_pos rfl]

/-- Walking the parent links from a reached vertex v of final level d
returns the reversed path of length d + 1 ending at the source, for any
fuel of at least d + 2. -/
theorem parent_walk_spec (g : Graph) (s : Nat) (st : BfsState)
    (hinv : BfsInv g s st) :
    ∀ d : Nat, ∀ v, v ∈ st.order → lvlB st v = (d : Int) →
      ∀ f, d + 2 ≤ f →
      ∃ w : List Int, parentWalk st.parent f (v : Int) = some ((v : Int) :: w) ∧
        ((v : Int) :: w).getLast? = some (s : Int) ∧ w.length = d := by
  intro d
  induction d using Nat.strong_induction_on with
  | _ d ih =>
    intro v hv hlvl f hf
    by_cases hvs : v = s
    · subst hvs
      have hd0 : d = 0 := by
        have h0 : (d : Int) = 0 := by rw [← hlvl, hinv.sLvl]
        exact_mod_cast h0
      subst hd0
      obtain ⟨f2, rfl⟩ : ∃ f2, f = f2 + 1 + 1 := ⟨f - 2, by omega⟩
      refine ⟨[], ?_, by simp, rfl⟩
      rw [parentWalk_step]
      have hps : st.parent.getD v (-1) = -1 := hinv.sPar
      rw [hps, parentWalk_neg_one]
    · obtain ⟨p, hp1, hp2, hp3⟩ := hinv.parOrder v hv hvs
      have hpmem : p ∈ st.order := hp2.subset (by simp)
      obtain ⟨dp, hdp, _⟩ := final_mem_reach g s st hinv p hpmem
      have hdpd : d = dp + 1 := by
        have h0 : (d : Int) = (dp : Int) + 1 := by rw [← hlvl, hp3, hdp]
        exact_mod_cast h0
      obtain ⟨f1, rfl⟩ : ∃ f1, f = f1 + 1 := ⟨f - 1, by omega⟩
      obtain ⟨w', hw1, hw2, hw3⟩ := ih dp (by omega) p hpmem hdp f1 (by omega)
      refine ⟨(p : Int) :: w', ?_, ?_, by simp [hw3, hdpd]⟩
      · rw [parentWalk_step]
        rw [show st.parent.getD v (-1) = (p : Int) from hp1, hw1]
      · rw [List.getLast?_cons_cons]
        exact hw2

/-- C4: with the parent array produced by bfs from start, the
reconstructed path from start to a reachable end begins at start and
ends at end (and is the singleton when end equals start), and is the
empty sequence when end is unreachable. -/
theorem reconstruct_path_spec (g : Graph) (s e : Nat) (hg : g.InRange)
    (hs : s < g.V) (he : e < g.V) :
    ∃ ord lvl par, g.bfs s = some (ord, lvl, par) ∧
      ((∃ n, Reach g s e n) →
        ∃ pth, reconstruct_path s e par = some pth ∧
          pth.head? = some (s : Int) ∧ pth.getLast? = some (e : Int) ∧
          (e = s → pth = [(s : Int)])) ∧
      (¬ (∃ n, Reach g s e n) → reconstruct_path s e par = some []) := by
  obtain ⟨st', h1, hinv, hq, hbfs⟩ := bfs_master g s hg hs
  have hlenP : st'.parent.length = g.V := hinv.lenP
  refine ⟨st'.order, st'.level, st'.parent, hbfs, ?_, ?_⟩
  · rintro ⟨n, hn⟩
    have hmem : e ∈ st'.order := (final_reach_mem g s hg st' hinv hq e n hn).1
    obtain ⟨d, hd, _⟩ := final_mem_reach g s st' hinv e hmem
    have hdV : d < g.V := by
      have hb := hinv.lvlBound e (hinv.orderLt e hmem)
        ((hinv.visIff e (hinv.orderLt e hmem)).mpr (Or.inl hmem))
      rw [hd] at hb
      have hc := countTrue_le_length st'.visited
      rw [hinv.lenV] at hc
      have hlt : (d : Int) < (g.V : Int) := by
        calc (d : Int) < (countTrue st'.visited : Int) := hb
        _ ≤ (g.V : Int) := by exact_mod_cast hc
      exact_mod_cast hlt
    obtain ⟨w, hw1, hw2, hw3⟩ := parent_walk_spec g s st' hinv d e hmem hd
      (st'.parent.length + 1) (by omega)
    have hrp : reconstruct_path s e st'.parent
        = match ((e : Int) :: w).reverse with
          | [] => none
          | p :: rest => some (if p = (s : Int) then p :: rest else []) := by
      unfold reconstruct_path
      rw [hw1]
    have hrev_head : ((e : Int) :: w).reverse.head? = some (s : Int) := by
      rw [List.head?_reverse]
      exact hw2
    cases hrev : ((e : Int) :: w).reverse with
    | nil =>
      rw [hrev] at hrev_head
      simp at hrev_head
    | cons p rest =>
      rw [hrev] at hrev_head
      simp only [List.head?_cons, Option.some.injEq] at hrev_head
      subst hrev_head
      rw [hrev] at hrp
      have hrp2 : reconstruct_path s e st'.parent
          = some (if (s : Int) = (s : Int) then (s : Int) :: rest else []) := hrp
      rw [if_pos rfl] at hrp2
      refine ⟨(s : Int) :: rest, hrp2, by simp, ?_, ?_⟩
      · have h5 : ((s : Int) :: rest).getLast? = ((e : Int) :: w).reverse.getLast? := by
          rw [hrev]
        rw [h5, List.getLast?_reverse]
        simp
      · intro hes
        have hd0 : d = 0 := by
          have h0 : (d : Int) = 0 := by
            rw [← hd, hes]
            exact hinv.sLvl
          exact_mod_cast h0
        have hrl : rest = [] := by
          have hlen := congrArg List.length hrev
          simp at hlen
          have hr0 : rest.length = 0 := by omega
          exact List.length_eq_zero.mp hr0
        rw [hrl]
  · intro hnr
    have hnmem : e ∉ st'.order := by
      intro hmem
      obtain ⟨d, _, hrd⟩ := final_mem_reach g s st' hinv e hmem
      exact hnr ⟨d, hrd⟩
    have hne : e ≠ s := by
      intro hes
      exact hnr ⟨0, hes ▸ Reach.refl⟩
    have hvis : visB st' e = false := by
      cases hvv : visB st' e
      · rfl
      · have hmem := (hinv.visIff e he).mp hvv
        rw [hq] at hmem
        rcases hmem with h | h
        · exact absurd h hnmem
        · simp at h
    have hpar : st'.parent.getD e (-1) = -1 := (hinv.unvisData e he hvis).2
    obtain ⟨f2, hf2⟩ : ∃ f2, st'.parent.length + 1 = f2 + 1 + 1 :=
      ⟨st'.parent.length - 1, by omega⟩
    have hwalk : parentWalk st'.parent (f2 + 1 + 1) (e : Int) = some [(e : Int)] := by
      rw [parentWalk_step, hpar, parentWalk_neg_one]
    have hrp : reconstruct_path s e st'.parent
        = some (if (e : Int) = (s : Int) then [(e : Int)] else []) := by
      unfold reconstruct_path
      rw [hf2, hwalk]
      rfl
    rw [hrp, if_neg (by exact_mod_cast hne)]

theorem reconstruct_path_spec_witness :
    ∃ ord lvl par, exGraph.bfs 0 = some (ord, lvl, par) ∧
      ((∃ n, Reach exGraph 0 4 n) →
        ∃ pth, reconstruct_path 0 4 par = some pth ∧
          pth.head? = some (0 : Int) ∧ pth.getLast? = some (4 : Int) ∧
          (4 = 0 → pth = [(0 : Int)])) ∧
      (¬ (∃ n, Reach exGraph 0 4 n) → reconstruct_path 0 4 par = some []) :=
  reconstruct_path_spec exGraph 0 4 (by decide) (by decide) (by decide)

/-! ### The all-components traversal -/

/-- What one run of the inner for loop of bfs_all_components does. -/
theorem markNew_spec (ns : List Nat) (visited : List Bool) (queue : List Nat) :
    ∃ fresh,
      (markNew ns visited queue).2 = queue ++ fresh ∧
      (markNew ns visited queue).1.length = visited.length ∧
      fresh.Nodup ∧
      (∀ n ∈ fresh, n ∈ ns ∧ visited.getD n true = false ∧ n < visited.length) ∧
      (∀ x, (markNew ns visited queue).1.getD x true = true ↔
        visited.getD x true = true ∨ x ∈ fresh) ∧
      countTrue (markNew ns visited queue).1 = countTrue visited + fresh.length := by
  induction ns generalizing visited queue with
  | nil =>
    exact ⟨[], by simp [markNew], by simp [markNew], by simp,
      by simp, by simp [markNew], by simp [markNew]⟩
  | cons n ns ih =>
    have hdef : markNew (n :: ns) visited queue
        = if visited.getD n true then markNew ns visited queue
          else markNew ns (visited.set n true) (queue ++ [n]) := rfl
    by_cases h : visited.getD n true = true
    · rw [hdef, if_pos h]
      obtain ⟨fresh, h1, h2, h3, h4, h5, h6⟩ := ih visited queue
      refine ⟨fresh, h1, h2, h3, ?_, h5, h6⟩
      intro m hm
      obtain ⟨ha, hb, hc⟩ := h4 m hm
      exact ⟨by simp [ha], hb, hc⟩
    · have hfalse : visited.getD n true = false := by
        cases hv : visited.getD n true
        · rfl
        · exact absurd hv h
      have hn_lt : n < visited.length := lt_length_of_getD_set _ _ hfalse
      rw [hdef, if_neg h]
      obtain ⟨fresh, h1, h2, h3, h4, h5, h6⟩ := ih (visited.set n true) (queue ++ [n])
      have hset_self : (visited.set n true).getD n true = true :=
        getD_set_self _ _ _ _ hn_lt
      have hn_not : n ∉ fresh := by
        intro hmem
        have := (h4 n hmem).2.1
        rw [hset_self] at this
        exact Bool.noConfusion this
      refine ⟨n :: fresh, ?_, ?_, ?_, ?_, ?_, ?_⟩
      · rw [h1]; simp
      · rw [h2]; simp
      · exact List.nodup_cons.mpr ⟨hn_not, h3⟩
      · intro m hm
        rcases List.mem_cons.mp hm with rfl | hm'
        · exact ⟨by simp, hfalse, hn_lt⟩
        · obtain ⟨ha, hb, hc⟩ := h4 m hm'
          have hmn : m ≠ n := by
            intro he
            rw [he, hset_self] at hb
            exact Bool.noConfusion hb
          refine ⟨by simp [ha], ?_, by simpa using hc⟩
          rw [← getD_set_ne visited n m true true (fun he => hmn he.symm)]
          exact hb
      · intro x
        rw [h5 x]
        by_cases hx : x = n
        · subst hx
          constructor
          · intro _
            exact Or.inr (by simp)
          · intro _
            exact Or.inl hset_self
        · rw [getD_set_ne visited n x true true (fun he => hx he.symm)]
          simp only [List.mem_cons]
          constructor
          · rintro (ha | hb)
            · exact Or.inl ha
            · exact Or.inr (Or.inr hb)
          · rintro (ha | rfl | hb)
            · exact Or.inl ha
            · exact absurd rfl hx
            · exact Or.inr hb
      · rw [h6, countTrue_set_true visited n hfalse]
        simp
        omega

/-- Invariant of the inner while loop of bfs_all_components, relative to
the visited array (base) at the time the current component root was
chosen: the freshly collected vertices are in range and were unvisited
at that time, are collectively duplicate-free, and the current visited
array is the base plus exactly the collected and queued vertices. -/
structure CompInv (g : Graph) (base visited : List Bool)
    (comp queue : List Nat) : Prop where
  len : visited.length = g.V
  lenB : base.length = g.V
  memLt : ∀ x, x ∈ comp ∨ x ∈ queue → x < g.V ∧ base.getD x true = false
  nodup : (comp ++ queue).Nodup
  visIff : ∀ x, visited.getD x true = true ↔
    base.getD x true = true ∨ x ∈ comp ∨ x ∈ queue

theorem compInv_step (g : Graph) (base : List Bool)
    (visited : List Bool) (comp : List Nat) (c : Nat) (rest : List Nat)
    (hci : CompInv g base visited comp (c :: rest)) :
    CompInv g base (markNew (g.nbrs c) visited rest).1 (comp ++ [c])
      (markNew (g.nbrs c) visited rest).2 ∧
    (markNew (g.nbrs c) visited rest).2.length +
      ((markNew (g.nbrs c) visited rest).1.length -
        countTrue (markNew (g.nbrs c) visited rest).1) + 1
      = (c :: rest).length + (visited.length - countTrue visited) := by
  obtain ⟨fresh, h1, h2, h3, h4, h5, h6⟩ := markNew_spec (g.nbrs c) visited rest
  have hMemVis : ∀ x, x ∈ comp ∨ x ∈ c :: rest → visited.getD x true = true :=
    fun x hx => (hci.visIff x).mpr (Or.inr (by tauto))
  have hFreshNew : ∀ x ∈ fresh, visited.getD x true = false :=
    fun x hx => (h4 x hx).2.1
  have hFreshBase : ∀ x ∈ fresh, base.getD x true = false := by
    intro x hx
    cases hb : base.getD x true
    · rfl
    · have := (hci.visIff x).mpr (Or.inl hb)
      rw [hFreshNew x hx] at this
      exact Bool.noConfusion this
  constructor
  · constructor
    case len => rw [h2]; exact hci.len
    case lenB => exact hci.lenB
    case memLt =>
      intro x hx
      rcases hx with hx | hx
      · rcases List.mem_append.mp hx with hx' | hx'
        · exact hci.memLt x (Or.inl hx')
        · rw [List.mem_singleton.mp hx']
          exact hci.memLt c (Or.inr (by simp))
      · rw [h1] at hx
        rcases List.mem_append.mp hx with hx' | hx'
        · exact hci.memLt x (Or.inr (by simp [hx']))
        · obtain ⟨_, hb, hlt⟩ := h4 x hx'
          refine ⟨by rw [← hci.len]; exact hlt, ?_⟩
          exact hFreshBase x hx'
    case nodup =>
      rw [h1]
      have hassoc : (comp ++ [c]) ++ (rest ++ fresh)
          = (comp ++ c :: rest) ++ fresh := by
        simp
      rw [hassoc, List.nodup_append]
      refine ⟨hci.nodup, h3, ?_⟩
      intro x hx hxf
      have hxv := hMemVis x (by
        rcases List.mem_append.mp hx with h' | h'
        · exact Or.inl h'
        · exact Or.inr h')
      rw [hFreshNew x hxf] at hxv
      exact Bool.noConfusion hxv
    case visIff =>
      intro x
      rw [h5 x, hci.visIff x, h1]
      simp only [List.mem_append, List.mem_cons, List.mem_singleton]
      tauto
  · have hq2 : (markNew (g.nbrs c) visited rest).2.length
        = rest.length + fresh.length := by
      rw [h1]; simp
    have hcc : countTrue visited ≤ visited.length := countTrue_le_length _
    have hcc2 : countTrue (markNew (g.nbrs c) visited rest).1
        ≤ (markNew (g.nbrs c) visited rest).1.length := countTrue_le_length _
    rw [hq2, h2, h6]
    simp only [List.length_cons]
    rw [h2, h6] at hcc2
    omega

theorem compLoop_run (g : Graph) (base : List Bool) :
    ∀ fuel visited comp queue, CompInv g base visited comp queue →
      queue.length + (visited.length - countTrue visited) ≤ fuel →
      ∃ v1 ext, compLoop g fuel visited comp queue = some (v1, comp ++ ext) ∧
        CompInv g base v1 (comp ++ ext) [] := by
  intro fuel
  induction fuel with
  | zero =>
    intro visited comp queue hci hm
    have hq : queue = [] := by
      cases hql : queue with
      | nil => rfl
      | cons c rest =>
        rw [hql] at hm
        simp at hm
    subst hq
    refine ⟨visited, [], ?_, by simpa using hci⟩
    simp [compLoop]
  | succ fuel ih =>
    intro visited comp queue hci hm
    cases hql : queue with
    | nil =>
      subst hql
      refine ⟨visited, [], ?_, by simpa using hci⟩
      simp [compLoop]
    | cons c rest =>
      subst hql
      obtain ⟨hci', hmeas⟩ := compInv_step g base visited comp c rest hci
      have hm' : (markNew (g.nbrs c) visited rest).2.length +
          ((markNew (g.nbrs c) visited rest).1.length -
            countTrue (markNew (g.nbrs c) visited rest).1) ≤ fuel := by
        omega
      obtain ⟨v1, ext, hrun, hfin⟩ := ih (markNew (g.nbrs c) visited rest).1
        (comp ++ [c]) (markNew (g.nbrs c) visited rest).2 hci' hm'
      refine ⟨v1, [c] ++ ext, ?_, ?_⟩
      · have hdef : compLoop g (fuel + 1) visited comp (c :: rest)
            = compLoop g fuel (markNew (g.nbrs c) visited rest).1 (comp ++ [c])
                (markNew (g.nbrs c) visited rest).2 := rfl
        rw [hdef, hrun]
        simp
      · have : comp ++ [c] ++ ext = comp ++ ([c] ++ ext) := by simp
        rw [← this]
        exact hfin

/-- Specification of the outer for loop of bfs_all_components: starting
from a strictly increasing list of candidate roots that contains every
still unvisited vertex, it returns components that exactly cover the
unvisited vertices without duplication, each component led by its
smallest member, with component heads strictly increasing. -/
theorem allCompsFrom_spec (g : Graph) :
    ∀ is visited, visited.length = g.V →
      is.Pairwise (· < ·) →
      (∀ x ∈ is, x < g.V) →
      (∀ x, x < g.V → visited.getD x true = false → x ∈ is) →
      ∃ comps, allCompsFrom g is visited = some comps ∧
        comps.flatten.Nodup ∧
        (∀ x, x ∈ comps.flatten ↔ x < g.V ∧ visited.getD x true = false) ∧
        (∀ c ∈ comps, ∃ r t, c = r :: t ∧ r ∈ is ∧ ∀ x ∈ c, r ≤ x) ∧
        (comps.map fun c => c.headD 0).Pairwise (· < ·) := by
  intro is
  induction is with
  | nil =>
    intro visited hlen hpw hlt hsub
    refine ⟨[], rfl, by simp, ?_, by simp, by simp⟩
    intro x
    simp only [List.flatten_nil, List.not_mem_nil, false_iff]
    rintro ⟨hxV, hxf⟩
    exact absurd (hsub x hxV hxf) (List.not_mem_nil x)
  | cons i is ih =>
    intro visited hlen hpw hlt hsub
    have hiV : i < g.V := hlt i (by simp)
    obtain ⟨hihead, hitail⟩ := List.pairwise_cons.mp hpw
    have hdef : allCompsFrom g (i :: is) visited
        = if visited.getD i true then allCompsFrom g is visited
          else
            match compLoop g (g.V + 1) (visited.set i true) [] [i] with
            | none => none
            | some (visited', comp) =>
              match allCompsFrom g is visited' with
              | none => none
              | some comps => some (comp :: comps) := rfl
    by_cases h : visited.getD i true = true
    · rw [hdef, if_pos h]
      have hsub' : ∀ x, x < g.V → visited.getD x true = false → x ∈ is := by
        intro x hxV hxf
        have hx := hsub x hxV hxf
        rcases List.mem_cons.mp hx with rfl | hx'
        · rw [h] at hxf; exact Bool.noConfusion hxf
        · exact hx'
      obtain ⟨comps, hc1, hc2, hc3, hc4, hc5⟩ := ih visited hlen hitail
        (fun x hx => hlt x (by simp [hx])) hsub'
      refine ⟨comps, hc1, hc2, hc3, ?_, hc5⟩
      intro c hc
      obtain ⟨r, t, ha, hb, hm⟩ := hc4 c hc
      exact ⟨r, t, ha, by simp [hb], hm⟩
    · have hfalse : visited.getD i true = false := by
        cases hv : visited.getD i true
        · rfl
        · exact absurd hv h
      have hi_lt : i < visited.length := by rw [hlen]; exact hiV
      have hci0 : CompInv g visited (visited.set i true) [] [i] := by
        constructor
        case len => rw [List.length_set]; exact hlen
        case lenB => exact hlen
        case memLt =>
          intro x hx
          rcases hx with hx | hx
          · simp at hx
          · rw [List.mem_singleton.mp hx]
            exact ⟨hiV, hfalse⟩
        case nodup => simp
        case visIff =>
          intro x
          by_cases hx : x = i
          · subst hx
            constructor
            · intro _
              exact Or.inr (Or.inr (by simp))
            · intro _
              exact getD_set_self _ _ _ _ hi_lt
          · rw [getD_set_ne visited i x true true (fun he => hx he.symm)]
            simp only [List.not_mem_nil, List.mem_singleton, or_false, false_or]
            constructor
            · intro hv
              exact Or.inl hv
            · rintro (hv | rfl)
              · exact hv
              · exact absurd rfl hx
      have hm0 : ([i] : List Nat).length +
          ((visited.set i true).length - countTrue (visited.set i true)) ≤ g.V + 1 := by
        rw [List.length_set, countTrue_set_true visited i hfalse]
        have := countTrue_le_length visited
        simp only [List.length_singleton]
        omega
      obtain ⟨hci1, hmeas1⟩ := compInv_step g visited (visited.set i true) [] i [] hci0
      have hm1 : (markNew (g.nbrs i) (visited.set i true) []).2.length +
          ((markNew (g.nbrs i) (visited.set i true) []).1.length -
            countTrue (markNew (g.nbrs i) (visited.set i true) []).1) ≤ g.V := by
        have hh : ((i : Nat) :: []).length +
            ((visited.set i true).length - countTrue (visited.set i true)) ≤ g.V + 1 := hm0
        omega
      obtain ⟨v1, ext, hrun1, hfin0⟩ := compLoop_run g visited g.V
        (markNew (g.nbrs i) (visited.set i true) []).1 ([] ++ [i])
        (markNew (g.nbrs i) (visited.set i true) []).2 hci1 hm1
      have hstep : compLoop g (g.V + 1) (visited.set i true) [] [i]
          = compLoop g g.V (markNew (g.nbrs i) (visited.set i true) []).1 ([] ++ [i])
              (markNew (g.nbrs i) (visited.set i true) []).2 := rfl
      have hrun : compLoop g (g.V + 1) (visited.set i true) [] [i]
          = some (v1, i :: ext) := by
        rw [hstep, hrun1]
        simp
      have hfin : CompInv g visited v1 (i :: ext) [] := by
        have heq : ([] ++ [i]) ++ ext = i :: ext := by simp
        rw [← heq]
        exact hfin0
      have hCnodup : (i :: ext).Nodup := by
        have hnd := hfin.nodup
        simpa using hnd
      have hCmem : ∀ x ∈ i :: ext, x < g.V ∧ visited.getD x true = false :=
        fun x hx => hfin.memLt x (Or.inl hx)
      have hCvis : ∀ x, v1.getD x true = true ↔
          visited.getD x true = true ∨ x ∈ i :: ext := by
        intro x
        rw [hfin.visIff x]
        simp
      have hsub1 : ∀ x, x < g.V → v1.getD x true = false → x ∈ is := by
        intro x hxV hxf
        have hxvis : visited.getD x true = false := by
          cases hv : visited.getD x true
          · rfl
          · have := (hCvis x).mpr (Or.inl hv)
            rw [hxf] at this
            exact Bool.noConfusion this
        have hxnc : x ∉ i :: ext := by
          intro hmem
          have := (hCvis x).mpr (Or.inr hmem)
          rw [hxf] at this
          exact Bool.noConfusion this
        have hx := hsub x hxV hxvis
        rcases List.mem_cons.mp hx with rfl | hx'
        · exact absurd (by simp : x ∈ x :: ext) hxnc
        · exact hx'
      obtain ⟨comps, hc1, hc2, hc3, hc4, hc5⟩ := ih v1 hfin.len hitail
        (fun x hx => hlt x (by simp [hx])) hsub1
      have hfinal_eq : allCompsFrom g (i :: is) visited
          = some ((i :: ext) :: comps) := by
        rw [hdef, if_neg h, hrun]
        show (match allCompsFrom g is v1 with
              | none => none
              | some comps => some ((i :: ext) :: comps))
            = some ((i :: ext) :: comps)
        rw [hc1]
      refine ⟨(i :: ext) :: comps, hfinal_eq, ?_, ?_, ?_, ?_⟩
      · rw [List.flatten_cons, List.nodup_append]
        refine ⟨hCnodup, hc2, ?_⟩
        intro x hx hxf
        have hv1 : v1.getD x true = true := (hCvis x).mpr (Or.inr hx)
        have := (hc3 x).mp hxf
        rw [hv1] at this
        exact Bool.noConfusion this.2
      · intro x
        rw [List.flatten_cons, List.mem_append]
        constructor
        · rintro (hx | hx)
          · exact hCmem x hx
          · obtain ⟨hxV, hxf⟩ := (hc3 x).mp hx
            refine ⟨hxV, ?_⟩
            cases hv : visited.getD x true
            · rfl
            · have := (hCvis x).mpr (Or.inl hv)
              rw [hxf] at this
              exact Bool.noConfusion this
        · rintro ⟨hxV, hxf⟩
          by_cases hx : x ∈ i :: ext
          · exact Or.inl hx
          · refine Or.inr ((hc3 x).mpr ⟨hxV, ?_⟩)
            cases hv : v1.getD x true
            · rfl
            · rcases (hCvis x).mp hv with h' | h'
              · rw [hxf] at h'
                exact Bool.noConfusion h'
              · exact absurd h' hx
      · intro c hc
        rcases List.mem_cons.mp hc with rfl | hc'
        · refine ⟨i, ext, rfl, by simp, ?_⟩
          intro x hx
          obtain ⟨hxV, hxf⟩ := hCmem x hx
          have hxi := hsub x hxV hxf
          rcases List.mem_cons.mp hxi with rfl | hx'
          · exact Nat.le_refl x
          · exact Nat.le_of_lt (hihead x hx')
        · obtain ⟨r, t, ha, hb, hm⟩ := hc4 c hc'
          exact ⟨r, t, ha, by simp [hb], hm⟩
      · rw [List.map_cons]
        rw [List.pairwise_cons]
        constructor
        · intro y hy
          obtain ⟨c, hcm, rfl⟩ := List.mem_map.mp hy
          obtain ⟨r, t, ha, hb, _⟩ := hc4 c hcm
          rw [ha]
          simp only [List.headD_cons]
          exact hihead r hb
        · exact hc5

/-- C5: bfs_all_components partitions the vertex set: every index below
the vertex count appears in exactly one component, the component sizes
sum to the vertex count, each component starts with its smallest-indexed
vertex (its root), and the components appear in increasing order of
their roots. -/
theorem bfs_all_components_partition (g : Graph) (_hg : g.InRange) :
    ∃ comps, g.bfs_all_components = some comps ∧
      comps.flatten.Nodup ∧
      (∀ x, x ∈ comps.flatten ↔ x < g.V) ∧
      (comps.map List.length).sum = g.V ∧
      (∀ c ∈ comps, ∃ r t, c = r :: t ∧ ∀ x ∈ c, r ≤ x) ∧
      (comps.map fun c => c.headD 0).Pairwise (· < ·) := by
  have hrepl : ∀ x, x < g.V →
      (List.replicate g.V false).getD x true = false :=
    fun x hx => getD_replicate_lt _ _ _ _ hx
  obtain ⟨comps, hc1, hc2, hc3, hc4, hc5⟩ := allCompsFrom_spec g
    (List.range g.V) (List.replicate g.V false)
    (by simp)
    (List.pairwise_lt_range g.V)
    (fun x hx => List.mem_range.mp hx)
    (fun x hxV _ => List.mem_range.mpr hxV)
  have hmem : ∀ x, x ∈ comps.flatten ↔ x < g.V := by
    intro x
    rw [hc3 x]
    constructor
    · exact fun hx => hx.1
    · exact fun hx => ⟨hx, hrepl x hx⟩
  refine ⟨comps, hc1, hc2, hmem, ?_, ?_, hc5⟩
  · have hperm : comps.flatten.Perm (List.range g.V) := by
      rw [List.perm_ext_iff_of_nodup hc2 (List.nodup_range g.V)]
      intro a
      rw [hmem a, List.mem_range]
    have hlen := hperm.length_eq
    rw [List.length_flatten comps, List.length_range] at hlen
    exact hlen
  · intro c hc
    obtain ⟨r, t, ha, _, hm⟩ := hc4 c hc
    exact ⟨r, t, ha, hm⟩

theorem bfs_all_components_partition_witness :
    ∃ comps, exGraph.bfs_all_components = some comps ∧
      comps.flatten.Nodup ∧
      (∀ x, x ∈ comps.flatten ↔ x < exGraph.V) ∧
      (comps.map List.length).sum = exGraph.V ∧
      (∀ c ∈ comps, ∃ r t, c = r :: t ∧ ∀ x ∈ c, r ≤ x) ∧
      (comps.map fun c => c.headD 0).Pairwise (· < ·) :=
  bfs_all_components_partition exGraph (by decide)

/-! ### The exact-semantics model of the Python module

Integer indices with CPython list semantics: an index i into a list of
length n resolves to i when 0 <= i < n, to n + i when -n <= i < 0, and
raises IndexError otherwise.  The adjacency list is a defaultdict: a
read of a missing key inserts an empty entry.  The unbounded while loops
again carry fuel; running out is a distinct outcome, never conflated
with IndexError. -/

inductive PyErr where
  | index : PyErr
  | fuel : PyErr
deriving DecidableEq

/-- Association list standing for the Python dict, in insertion order. -/
abbrev AdjDict := List (Int × List Int)

def dlookup : AdjDict → Int → Option (List Int)
  | [], _ => none
  | (k, v) :: d, key => if k = key then some v else dlookup d key

/-- A defaultdict read: returns the stored list, inserting an empty
entry at the end of the dict when the key is missing. -/
def dget (d : AdjDict) (k : Int) : AdjDict × List Int :=
  match dlookup d k with
  | some v => (d, v)
  | none => (d ++ [(k, [])], [])

/-- The effect of self.adj_list[k].append(x): append x to the list
stored at k, creating the entry when missing. -/
def dappend : AdjDict → Int → Int → AdjDict
  | [], k, x => [(k, [x])]
  | (k2, v) :: d, k, x =>
    if k2 = k then (k2, v ++ [x]) :: d else (k2, v) :: dappend d k x

/-- Resolution of a CPython list index against a list length. -/
def pyIdx (len : Nat) (i : Int) : Option Nat :=
  if 0 ≤ i ∧ i < (len : Int) then some i.toNat
  else if -(len : Int) ≤ i ∧ i < 0 then some (i + len).toNat
  else none

/-- CPython list read l[i]. -/
def pyGet {α : Type} (l : List α) (i : Int) : Except PyErr α :=
  match pyIdx l.length i with
  | some n =>
    match l[n]? with
    | some a => Except.ok a
    | none => Except.error PyErr.index
  | none => Except.error PyErr.index

/-- CPython list write l[i] = a. -/
def pySet {α : Type} (l : List α) (i : Int) (a : α) : Except PyErr (List α) :=
  match pyIdx l.length i with
  | some n => Except.ok (l.set n a)
  | none => Except.error PyErr.index

/-- The graph object: vertex count V and defaultdict adjacency list,
exactly the two fields assigned by the Python constructor. -/
structure PyGraph where
  V : Int
  adj_list : AdjDict
deriving DecidableEq

/-- The constructor: field assignments only, no validation. -/
def PyGraph.init (vertices : Int) : PyGraph :=
  { V := vertices, adj_list := [] }

/-- The add_edge method: append v to the list at u, and when
bidirectional also append u to the list at v. -/
def PyGraph.add_edge (g : PyGraph) (u v : Int) (bidirectional : Bool) : PyGraph :=
  let a1 := dappend g.adj_list u v
  { g with adj_list := if bidirectional then dappend a1 v u else a1 }

/-- Inner for loop of the bfs method, over (visited, parent, level,
queue), with every list access via the CPython index semantics. -/
def pyVisitNbrs (current : Int) :
    List Int → List Bool → List Int → List Int → List Int →
    Except PyErr (List Bool × List Int × List Int × List Int)
  | [], vis, par, lvl, q => Except.ok (vis, par, lvl, q)
  | n :: ns, vis, par, lvl, q =>
    match pyGet vis n with
    | Except.error e => Except.error e
    | Except.ok b =>
      if b then pyVisitNbrs current ns vis par lvl q
      else
        match pySet vis n true with
        | Except.error e => Except.error e
        | Except.ok vis2 =>
          match pySet par n current with
          | Except.error e => Except.error e
          | Except.ok par2 =>
            match pyGet lvl current with
            | Except.error e => Except.error e
            | Except.ok lc =>
              match pySet lvl n (lc + 1) with
              | Except.error e => Except.error e
              | Except.ok lvl2 =>
                pyVisitNbrs current ns vis2 par2 lvl2 (q ++ [n])

/-- The while loop of the bfs method.  The dict is threaded through
because the defaultdict read of the adjacency of the current vertex can
extend it; the dict state is returned even when an error escapes, since
a Python exception leaves the mutated object mutated. -/
def pyBfsLoop : Nat → AdjDict → List Bool → List Int → List Int →
    List Int → List Int →
    AdjDict × Except PyErr (List Int × List Int × List Int)
  | fuel, adj, vis, par, lvl, ord, queue =>
    match queue with
    | [] => (adj, Except.ok (ord, lvl, par))
    | c :: rest =>
      match fuel with
      | 0 => (adj, Except.error PyErr.fuel)
      | fuel + 1 =>
        match pyVisitNbrs c (dget adj c).2 vis par lvl rest with
        | Except.error e => ((dget adj c).1, Except.error e)
        | Except.ok (vis2, par2, lvl2, q2) =>
          pyBfsLoop fuel (dget adj c).1 vis2 par2 lvl2 (ord ++ [c]) q2

/-- The bfs method: allocate the three arrays of length V (empty when V
is negative, as the Python list repetition gives), mark and enqueue the
start vertex, and run the loop; returns the possibly extended graph and
the traversal result. -/
def PyGraph.bfs (g : PyGraph) (start : Int) (fuel : Nat) :
    PyGraph × Except PyErr (List Int × List Int × List Int) :=
  match pySet (List.replicate g.V.toNat false) start true with
  | Except.error e => (g, Except.error e)
  | Except.ok vis2 =>
    match pySet (List.replicate g.V.toNat (-1 : Int)) start 0 with
    | Except.error e => (g, Except.error e)
    | Except.ok lvl2 =>
      ({ g with adj_list := (pyBfsLoop fuel g.adj_list vis2
          (List.replicate g.V.toNat (-1 : Int)) lvl2 [] [start]).1 },
       (pyBfsLoop fuel g.adj_list vis2
          (List.replicate g.V.toNat (-1 : Int)) lvl2 [] [start]).2)

/-- Inner for loop of bfs_all_components. -/
def pyMarkNbrs : List Int → List Bool → List Int →
    Except PyErr (List Bool × List Int)
  | [], vis, q => Except.ok (vis, q)
  | n :: ns, vis, q =>
    match pyGet vis n with
    | Except.error e => Except.error e
    | Except.ok b =>
      if b then pyMarkNbrs ns vis q
      else
        match pySet vis n true with
        | Except.error e => Except.error e
        | Except.ok vis2 => pyMarkNbrs ns vis2 (q ++ [n])

/-- Inner while loop of bfs_all_components. -/
def pyCompLoop : Nat → AdjDict → List Bool → List Int → List Int →
    AdjDict × Except PyErr (List Bool × List Int)
  | fuel, adj, vis, comp, queue =>
    match queue with
    | [] => (adj, Except.ok (vis, comp))
    | c :: rest =>
      match fuel with
      | 0 => (adj, Except.error PyErr.fuel)
      | fuel + 1 =>
        match pyMarkNbrs (dget adj c).2 vis rest with
        | Except.error e => ((dget adj c).1, Except.error e)
        | Except.ok (vis2, q2) =>
          pyCompLoop fuel (dget adj c).1 vis2 (comp ++ [c]) q2

/-- Outer for loop of bfs_all_components over the vertex indices. -/
def pyAllCompsFrom (fuel : Nat) : List Int → AdjDict → List Bool →
    AdjDict × Except PyErr (List (List Int))
  | [], adj, _ => (adj, Except.ok [])
  | i :: is, adj, vis =>
    match pyGet vis i with
    | Except.error e => (adj, Except.error e)
    | Except.ok b =>
      if b then pyAllCompsFrom fuel is adj vis
      else
        match pySet vis i true with
        | Except.error e => (adj, Except.error e)
        | Except.ok vis2 =>
          match pyCompLoop fuel adj vis2 [] [i] with
          | (adj2, Except.error e) => (adj2, Except.error e)
          | (adj2, Except.ok (vis3, comp)) =>
            match pyAllCompsFrom fuel is adj2 vis3 with
            | (adj3, Except.error e) => (adj3, Except.error e)
            | (adj3, Except.ok comps) => (adj3, Except.ok (comp :: comps))

/-- The bfs_all_components method. -/
def PyGraph.bfs_all_components (g : PyGraph) (fuel : Nat) :
    PyGraph × Except PyErr (List (List Int)) :=
  ({ g with adj_list := (pyAllCompsFrom fuel ((List.range g.V.toNat).map Int.ofNat)
      g.adj_list (List.replicate g.V.toNat false)).1 },
   (pyAllCompsFrom fuel ((List.range g.V.toNat).map Int.ofNat)
      g.adj_list (List.replicate g.V.toNat false)).2)

/-- The while loop of reconstruct_path: collect vertices walking the
parent links until the sentinel -1. -/
def pyWalk (parent : List Int) : Nat → Int → Except PyErr (List Int)
  | 0, _ => Except.error PyErr.fuel
  | fuel + 1, e =>
    if e = -1 then Except.ok []
    else
      match pyGet parent e with
      | Except.error err => Except.error err
      | Except.ok p =>
        match pyWalk parent fuel p with
        | Except.error err => Except.error err
        | Except.ok w => Except.ok (e :: w)

/-- The reconstruct_path method: walk backward, reverse, compare the
first element (an IndexError when the walk is empty, which happens
exactly for end = -1) with start. -/
def PyGraph.reconstruct_path (_g : PyGraph) (start e : Int)
    (parent : List Int) (fuel : Nat) : Except PyErr (List Int) :=
  match pyWalk parent fuel e with
  | Except.error err => Except.error err
  | Except.ok w =>
    match w.reverse with
    | [] => Except.error PyErr.index
    | p :: rest => Except.ok (if p = start then p :: rest else [])

/-- The print_graph method: a defaultdict read per vertex index; the
returned pairs stand for the printed lines. -/
def pyPrintAux : List Int → AdjDict → AdjDict × List (Int × List Int)
  | [], adj => (adj, [])
  | n :: ns, adj =>
    ((pyPrintAux ns (dget adj n).1).1,
     (n, (dget adj n).2) :: (pyPrintAux ns (dget adj n).1).2)

def PyGraph.print_graph (g : PyGraph) : PyGraph × List (Int × List Int) :=
  ({ g with adj_list :=
      (pyPrintAux ((List.range g.V.toNat).map Int.ofNat) g.adj_list).1 },
   (pyPrintAux ((List.range g.V.toNat).map Int.ofNat) g.adj_list).2)

/-- Observable adjacency: the stored neighbor list of a key, an absent
key reading as the empty sequence. -/
def PyGraph.adjObs (g : PyGraph) (u : Int) : List Int :=
  (dlookup g.adj_list u).getD []

/-- The example graph of the module usage block, built through the six
add_edge calls on Graph(8). -/
def pyExGraph : PyGraph :=
  ((((((PyGraph.init 8).add_edge 0 1 true).add_edge 0 2 true).add_edge
    1 3 true).add_edge 2 4 true).add_edge 5 6 true).add_edge 6 7 true

/-! ### The concrete example scenario -/

/-- C6: the module usage block.  On the eight-vertex graph with the
bidirectional edges 0-1, 0-2, 1-3, 2-4, 5-6, 6-7, bfs from 0 yields the
expected traversal order, levels and parents, bfs_all_components yields
the two components in order, and the two path reconstructions yield
0-2-4 and the empty sequence. -/
theorem example_usage_run :
    (pyExGraph.bfs 0 9).2
      = Except.ok ([0, 1, 2, 3, 4], [0, 1, 1, 2, 2, -1, -1, -1],
          [-1, 0, 0, 1, 2, -1, -1, -1]) ∧
    (pyExGraph.bfs_all_components 9).2
      = Except.ok [[0, 1, 2, 3, 4], [5, 6, 7]] ∧
    pyExGraph.reconstruct_path 0 4 [-1, 0, 0, 1, 2, -1, -1, -1] 9
      = Except.ok [0, 2, 4] ∧
    pyExGraph.reconstruct_path 0 7 [-1, 0, 0, 1, 2, -1, -1, -1] 9
      = Except.ok [] :=
  ⟨rfl, rfl, rfl, rfl⟩

/-! ### Error conditions at the index boundaries -/

theorem pyBfs_index_error (g : PyGraph) (s : Int) (fuel : Nat)
    (h : ((g.V.toNat : Nat) : Int) ≤ s ∨ s < -((g.V.toNat : Nat) : Int)) :
    (g.bfs s fuel).2 = Except.error PyErr.index := by
  have h1 : pySet (List.replicate g.V.toNat false) s true
      = Except.error PyErr.index := by
    unfold pySet
    have hidx : pyIdx (List.replicate g.V.toNat false).length s = none := by
      rw [List.length_replicate]
      unfold pyIdx
      rw [if_neg (by omega), if_neg (by omega)]
    rw [hidx]
  unfold PyGraph.bfs
  rw [h1]

theorem pyReconstruct_index_error (g : PyGraph) (s e : Int)
    (parent : List Int) (fuel : Nat) (hf : 1 ≤ fuel)
    (h : ((parent.length : Nat) : Int) ≤ e ∨
      e < -((parent.length : Nat) : Int) ∨ e = -1) :
    g.reconstruct_path s e parent fuel = Except.error PyErr.index := by
  obtain ⟨f1, rfl⟩ : ∃ f1, fuel = f1 + 1 := ⟨fuel - 1, by omega⟩
  have hdefw : pyWalk parent (f1 + 1) e
      = if e = -1 then Except.ok []
        else
          match pyGet parent e with
          | Except.error err => Except.error err
          | Except.ok p =>
            match pyWalk parent f1 p with
            | Except.error err => Except.error err
            | Except.ok w => Except.ok (e :: w) := rfl
  by_cases he : e = -1
  · subst he
    have hw : pyWalk parent (f1 + 1) (-1) = Except.ok [] := by
      rw [hdefw, if_pos rfl]
    unfold PyGraph.reconstruct_path
    rw [hw]
    rfl
  · have hgen : pyGet parent e = Except.error PyErr.index := by
      unfold pyGet
      have hidx : pyIdx parent.length e = none := by
        unfold pyIdx
        rcases h with h | h | h
        · rw [if_neg (by omega), if_neg (by omega)]
        · rw [if_neg (by omega), if_neg (by omega)]
        · exact absurd h he
      rw [hidx]
    have hw : pyWalk parent (f1 + 1) e = Except.error PyErr.index := by
      rw [hdefw, if_neg he, hgen]
    unfold PyGraph.reconstruct_path
    rw [hw]

/-- C7 counterexample: arguments outside the vertex range do not always
raise.  On the example graph, bfs(-1) runs to completion via the Python
negative-index wraparound (visiting the slot of vertex 7), and
reconstruct_path with end -2 runs to completion and returns the empty
path; neither call signals IndexKind although -1 and -2 lie outside the
vertex range. -/
theorem negative_arguments_no_error :
    (pyExGraph.bfs (-1) 9).2
      = Except.ok ([-1], [-1, -1, -1, -1, -1, -1, -1, 0],
          [-1, -1, -1, -1, -1, -1, -1, -1]) ∧
    pyExGraph.reconstruct_path 0 (-2) [-1, 0, 0, 1, 2, -1, -1, -1] 9
      = Except.ok [] :=
  ⟨rfl, rfl⟩

/-- C7 amended: bfs(start) fails with IndexKind exactly when start lies
outside the Python-indexable range, that is when start is at least
vertexCount or below -vertexCount; reconstruct_path(start, end, parent)
with a vertexCount-sized parent array fails with IndexKind when end is
at least vertexCount, below -vertexCount, or equal to -1 (the empty-walk
first-element access); arguments in the remaining negative range are
accepted through the negative-index wraparound, witnessed by concrete
non-raising runs at start = -1 and end = -2. -/
theorem index_error_boundaries :
    (∀ (g : PyGraph) (s : Int) (fuel : Nat),
      (((g.V.toNat : Nat) : Int) ≤ s ∨ s < -((g.V.toNat : Nat) : Int)) →
      (g.bfs s fuel).2 = Except.error PyErr.index) ∧
    (∀ (g : PyGraph) (s e : Int) (parent : List Int) (fuel : Nat),
      1 ≤ fuel →
      (((parent.length : Nat) : Int) ≤ e ∨
        e < -((parent.length : Nat) : Int) ∨ e = -1) →
      g.reconstruct_path s e parent fuel = Except.error PyErr.index) ∧
    (pyExGraph.bfs (-1) 9).2
      = Except.ok ([-1], [-1, -1, -1, -1, -1, -1, -1, 0],
          [-1, -1, -1, -1, -1, -1, -1, -1]) ∧
    pyExGraph.reconstruct_path 0 (-2) [-1, 0, 0, 1, 2, -1, -1, -1] 9
      = Except.ok [] :=
  ⟨pyBfs_index_error, pyReconstruct_index_error, rfl, rfl⟩

theorem index_error_boundaries_witness :
    ((PyGraph.init 3).bfs 5 9).2 = Except.error PyErr.index ∧
    (PyGraph.init 3).reconstruct_path 0 (-1) [-1, -1, -1] 9
      = Except.error PyErr.index :=
  ⟨index_error_boundaries.1 (PyGraph.init 3) 5 9 (by decide),
   index_error_boundaries.2.1 (PyGraph.init 3) 0 (-1) [-1, -1, -1] 9
     (by decide) (by decide)⟩

/-! ### Construction performs no validation -/

/-- C8 counterexample: constructing a graph with a negative vertex
count does not fail; the constructor is two field assignments with no
validation, so Graph(-1) succeeds and stores vertexCount -1. -/
theorem init_negative_succeeds :
    PyGraph.init (-1) = { V := -1, adj_list := [] } := rfl

/-- C8 amended: construction never fails: for every integer n, negative
included, Graph(n) succeeds, storing vertexCount n and an empty
adjacency; the failure only surfaces later, since with n below zero the
internal arrays are empty and every subsequent bfs raises IndexKind. -/
theorem init_no_validation :
    (∀ n : Int, PyGraph.init n = { V := n, adj_list := [] }) ∧
    (∀ n : Int, n < 0 → ∀ (s : Int) (fuel : Nat),
      ((PyGraph.init n).bfs s fuel).2 = Except.error PyErr.index) := by
  refine ⟨fun n => rfl, ?_⟩
  intro n hn s fuel
  apply pyBfs_index_error
  have h0 : (PyGraph.init n).V.toNat = 0 := Int.toNat_of_nonpos (by
    show n ≤ 0
    omega)
  rw [h0]
  omega

theorem init_no_validation_witness :
    ((PyGraph.init (-5)).bfs 0 9).2 = Except.error PyErr.index :=
  init_no_validation.2 (-5) (by decide) 0 9

/-! ### Frame: the traversals do not change the observable graph -/

theorem dlookup_append_unit (d : AdjDict) (k key : Int) :
    (dlookup (d ++ [(k, [])]) key).getD [] = (dlookup d key).getD [] := by
  induction d with
  | nil =>
    by_cases h : k = key
    · simp [dlookup, h]
    · simp [dlookup, h]
  | cons p d ih =>
    obtain ⟨k2, v⟩ := p
    by_cases h : k2 = key
    · simp [dlookup, h]
    · simp only [List.cons_append, dlookup, if_neg h]
      exact ih

theorem dget_pres (d : AdjDict) (k key : Int) :
    (dlookup (dget d k).1 key).getD [] = (dlookup d key).getD [] := by
  cases h : dlookup d k with
  | none =>
    have h1 : (dget d k).1 = d ++ [(k, [])] := by
      unfold dget
      rw [h]
    rw [h1]
    exact dlookup_append_unit d k key
  | some v =>
    have h1 : (dget d k).1 = d := by
      unfold dget
      rw [h]
    rw [h1]

theorem pyBfsLoop_pres : ∀ (fuel : Nat) (adj : AdjDict) (vis : List Bool)
    (par lvl ord queue : List Int) (key : Int),
    (dlookup (pyBfsLoop fuel adj vis par lvl ord queue).1 key).getD []
      = (dlookup adj key).getD [] := by
  intro fuel
  induction fuel with
  | zero =>
    intro adj vis par lvl ord queue key
    cases queue with
    | nil => rfl
    | cons c rest => rfl
  | succ fuel ih =>
    intro adj vis par lvl ord queue key
    cases queue with
    | nil => rfl
    | cons c rest =>
      cases hv : pyVisitNbrs c (dget adj c).2 vis par lvl rest with
      | error e =>
        show (dlookup
          (match pyVisitNbrs c (dget adj c).2 vis par lvl rest with
            | Except.error e => ((dget adj c).1, Except.error e)
            | Except.ok (vis2, par2, lvl2, q2) =>
              pyBfsLoop fuel (dget adj c).1 vis2 par2 lvl2 (ord ++ [c]) q2).1
          key).getD [] = (dlookup adj key).getD []
        rw [hv]
        exact dget_pres adj c key
      | ok t =>
        obtain ⟨vis2, par2, lvl2, q2⟩ := t
        show (dlookup
          (match pyVisitNbrs c (dget adj c).2 vis par lvl rest with
            | Except.error e => ((dget adj c).1, Except.error e)
            | Except.ok (vis2, par2, lvl2, q2) =>
              pyBfsLoop fuel (dget adj c).1 vis2 par2 lvl2 (ord ++ [c]) q2).1
          key).getD [] = (dlookup adj key).getD []
        rw [hv]
        exact (ih (dget adj c).1 vis2 par2 lvl2 (ord ++ [c]) q2 key).trans
          (dget_pres adj c key)

theorem pyCompLoop_pres : ∀ (fuel : Nat) (adj : AdjDict) (vis : List Bool)
    (comp queue : List Int) (key : Int),
    (dlookup (pyCompLoop fuel adj vis comp queue).1 key).getD []
      = (dlookup adj key).getD [] := by
  intro fuel
  induction fuel with
  | zero =>
    intro adj vis comp queue key
    cases queue with
    | nil => rfl
    | cons c rest => rfl
  | succ fuel ih =>
    intro adj vis comp queue key
    cases queue with
    | nil => rfl
    | cons c rest =>
      cases hv : pyMarkNbrs (dget adj c).2 vis rest with
      | error e =>
        show (dlookup
          (match pyMarkNbrs (dget adj c).2 vis rest with
            | Except.error e => ((dget adj c).1, Except.error e)
            | Except.ok (vis2, q2) =>
              pyCompLoop fuel (dget adj c).1 vis2 (comp ++ [c]) q2).1
          key).getD [] = (dlookup adj key).getD []
        rw [hv]
        exact dget_pres adj c key
      | ok t =>
        obtain ⟨vis2, q2⟩ := t
        show (dlookup
          (match pyMarkNbrs (dget adj c).2 vis rest with
            | Except.error e => ((dget adj c).1, Except.error e)
            | Except.ok (vis2, q2) =>
              pyCompLoop fuel (dget adj c).1 vis2 (comp ++ [c]) q2).1
          key).getD [] = (dlookup adj key).getD []
        rw [hv]
        exact (ih (dget adj c).1 vis2 (comp ++ [c]) q2 key).trans
          (dget_pres adj c key)

theorem pyAllCompsFrom_pres (fuel : Nat) : ∀ (is : List Int)
    (adj : AdjDict) (vis : List Bool) (key : Int),
    (dlookup (pyAllCompsFrom fuel is adj vis).1 key).getD []
      = (dlookup adj key).getD [] := by
  intro is
  induction is with
  | nil => intro adj vis key; rfl
  | cons i is ih =>
    intro adj vis key
    have hdef : pyAllCompsFrom fuel (i :: is) adj vis
        = match pyGet vis i with
          | Except.error e => (adj, Except.error e)
          | Except.ok b =>
            if b then pyAllCompsFrom fuel is adj vis
            else
              match pySet vis i true with
              | Except.error e => (adj, Except.error e)
              | Except.ok vis2 =>
                match pyCompLoop fuel adj vis2 [] [i] with
                | (adj2, Except.error e) => (adj2, Except.error e)
                | (adj2, Except.ok (vis3, comp)) =>
                  match pyAllCompsFrom fuel is adj2 vis3 with
                  | (adj3, Except.error e) => (adj3, Except.error e)
                  | (adj3, Except.ok comps) => (adj3, Except.ok (comp :: comps)) := rfl
    rw [hdef]
    cases hg : pyGet vis i with
    | error e => rfl
    | ok b =>
      cases b with
      | true => exact ih adj vis key
      | false =>
        cases hs : pySet vis i true with
        | error e => rfl
        | ok vis2 =>
          show (dlookup (match pyCompLoop fuel adj vis2 [] [i] with
              | (adj2, Except.error e) => (adj2, Except.error e)
              | (adj2, Except.ok (vis3, comp)) =>
                match pyAllCompsFrom fuel is adj2 vis3 with
                | (adj3, Except.error e) => (adj3, Except.error e)
                | (adj3, Except.ok comps) =>
                  (adj3, Except.ok (comp :: comps))).1 key).getD []
            = (dlookup adj key).getD []
          cases hcl : pyCompLoop fuel adj vis2 [] [i] with
          | mk adj2 r2 =>
            have hadj2 : (dlookup adj2 key).getD []
                = (dlookup adj key).getD [] := by
              have hp := pyCompLoop_pres fuel adj vis2 [] [i] key
              rw [hcl] at hp
              exact hp
            cases r2 with
            | error e => exact hadj2
            | ok t =>
              obtain ⟨vis3, comp⟩ := t
              show (dlookup (match pyAllCompsFrom fuel is adj2 vis3 with
                  | (adj3, Except.error e) => (adj3, Except.error e)
                  | (adj3, Except.ok comps) =>
                    (adj3, Except.ok (comp :: comps))).1 key).getD []
                = (dlookup adj key).getD []
              cases hac : pyAllCompsFrom fuel is adj2 vis3 with
              | mk adj3 r3 =>
                have hadj3 : (dlookup adj3 key).getD []
                    = (dlookup adj2 key).getD [] := by
                  have hp := ih adj2 vis3 key
                  rw [hac] at hp
                  exact hp
                cases r3 with
                | error e => exact hadj3.trans hadj2
                | ok comps => exact hadj3.trans hadj2

theorem pyPrintAux_pres : ∀ (is : List Int) (adj : AdjDict) (key : Int),
    (dlookup (pyPrintAux is adj).1 key).getD []
      = (dlookup adj key).getD [] := by
  intro is
  induction is with
  | nil => intro adj key; rfl
  | cons n ns ih =>
    intro adj key
    show (dlookup (pyPrintAux ns (dget adj n).1).1 key).getD [] = _
    exact (ih (dget adj n).1 key).trans (dget_pres adj n key)

/-- C9: bfs, bfs_all_components and print_graph leave the observable
graph state unchanged: the vertex count is unmodified and the neighbor
sequence of every key, with an absent key reading as the empty
sequence, is identical before and after the call (the defaultdict reads
only ever insert empty entries). -/
theorem traversals_preserve_graph :
    (∀ (g : PyGraph) (s : Int) (fuel : Nat),
      (g.bfs s fuel).1.V = g.V ∧
      ∀ u, (g.bfs s fuel).1.adjObs u = g.adjObs u) ∧
    (∀ (g : PyGraph) (fuel : Nat),
      (g.bfs_all_components fuel).1.V = g.V ∧
      ∀ u, (g.bfs_all_components fuel).1.adjObs u = g.adjObs u) ∧
    (∀ g : PyGraph,
      g.print_graph.1.V = g.V ∧
      ∀ u, g.print_graph.1.adjObs u = g.adjObs u) := by
  refine ⟨?_, ?_, ?_⟩
  · intro g s fuel
    unfold PyGraph.bfs
    cases h1 : pySet (List.replicate g.V.toNat false) s true with
    | error e => exact ⟨rfl, fun u => rfl⟩
    | ok vis2 =>
      cases h2 : pySet (List.replicate g.V.toNat (-1 : Int)) s 0 with
      | error e => exact ⟨rfl, fun u => rfl⟩
      | ok lvl2 =>
        refine ⟨rfl, fun u => ?_⟩
        exact pyBfsLoop_pres fuel g.adj_list vis2
          (List.replicate g.V.toNat (-1 : Int)) lvl2 [] [s] u
  · intro g fuel
    refine ⟨rfl, fun u => ?_⟩
    exact pyAllCompsFrom_pres fuel ((List.range g.V.toNat).map Int.ofNat)
      g.adj_list (List.replicate g.V.toNat false) u
  · intro g
    refine ⟨rfl, fun u => ?_⟩
    exact pyPrintAux_pres ((List.range g.V.toNat).map Int.ofNat) g.adj_list u

/-! ### add_edge is total and appends -/

theorem dlookup_dappend_self (d : AdjDict) (k x : Int) :
    dlookup (dappend d k x) k = some ((dlookup d k).getD [] ++ [x]) := by
  induction d with
  | nil => simp [dappend, dlookup]
  | cons p d ih =>
    obtain ⟨k2, v⟩ := p
    by_cases h : k2 = k
    · subst h
      simp [dappend, dlookup]
    · show dlookup (if k2 = k then (k2, v ++ [x]) :: d else (k2, v) :: dappend d k x) k = _
      rw [if_neg h]
      show (if k2 = k then some v else dlookup (dappend d k x) k) = _
      rw [if_neg h, ih]
      show _ = some ((if k2 = k then some v else dlookup d k).getD [] ++ [x])
      rw [if_neg h]

theorem dlookup_dappend_ne (d : AdjDict) (k x key : Int) (h : key ≠ k) :
    dlookup (dappend d k x) key = dlookup d key := by
  induction d with
  | nil =>
    show dlookup [(k, [x])] key = none
    show (if k = key then some [x] else none) = none
    rw [if_neg (fun he => h he.symm)]
  | cons p d ih =>
    obtain ⟨k2, v⟩ := p
    by_cases h2 : k2 = k
    · subst h2
      show dlookup (if k2 = k2 then (k2, v ++ [x]) :: d else _) key = _
      rw [if_pos rfl]
      show (if k2 = key then some (v ++ [x]) else dlookup d key) = _
      rw [if_neg (fun he => h (by rw [← he]))]
      show _ = (if k2 = key then some v else dlookup d key)
      rw [if_neg (fun he => h (by rw [← he]))]
    · show dlookup (if k2 = k then _ else (k2, v) :: dappend d k x) key = _
      rw [if_neg h2]
      show (if k2 = key then some v else dlookup (dappend d k x) key) = _
      rw [ih]
      rfl

/-- C10: add_edge performs no validation and never fails: for all
integer endpoints, in or out of the vertex range, it appends v to the
sequence at u (and u to the sequence at v when bidirectional, both
appends landing on the same sequence when u = v), leaves every other
key and the vertex count unchanged, and materializes an entry for u
(the permissive silently-extends policy of the defaultdict). -/
theorem add_edge_no_validation (g : PyGraph) (u v : Int) (b : Bool) :
    (g.add_edge u v b).V = g.V ∧
    (b = false →
      (g.add_edge u v b).adjObs u = g.adjObs u ++ [v] ∧
      ∀ w, w ≠ u → (g.add_edge u v b).adjObs w = g.adjObs w) ∧
    (b = true → u ≠ v →
      (g.add_edge u v b).adjObs u = g.adjObs u ++ [v] ∧
      (g.add_edge u v b).adjObs v = g.adjObs v ++ [u] ∧
      ∀ w, w ≠ u → w ≠ v → (g.add_edge u v b).adjObs w = g.adjObs w) ∧
    (b = true → u = v →
      (g.add_edge u v b).adjObs u = g.adjObs u ++ [v, u]) ∧
    dlookup (g.add_edge u v b).adj_list u ≠ none := by
  refine ⟨rfl, ?_, ?_, ?_, ?_⟩
  · rintro rfl
    constructor
    · show (dlookup (dappend g.adj_list u v) u).getD [] = _
      rw [dlookup_dappend_self]
      rfl
    · intro w hw
      show (dlookup (dappend g.adj_list u v) w).getD [] = _
      rw [dlookup_dappend_ne g.adj_list u v w hw]
      rfl
  · rintro rfl huv
    refine ⟨?_, ?_, ?_⟩
    · show (dlookup (dappend (dappend g.adj_list u v) v u) u).getD [] = _
      rw [dlookup_dappend_ne _ v u u huv, dlookup_dappend_self]
      rfl
    · show (dlookup (dappend (dappend g.adj_list u v) v u) v).getD [] = _
      rw [dlookup_dappend_self,
        dlookup_dappend_ne g.adj_list u v v (fun he => huv he.symm)]
      rfl
    · intro w hwu hwv
      show (dlookup (dappend (dappend g.adj_list u v) v u) w).getD [] = _
      rw [dlookup_dappend_ne _ v u w hwv, dlookup_dappend_ne g.adj_list u v w hwu]
      rfl
  · rintro rfl huv
    rw [← huv]
    show (dlookup (dappend (dappend g.adj_list u u) u u) u).getD []
      = (dlookup g.adj_list u).getD [] ++ [u, u]
    rw [dlookup_dappend_self, dlookup_dappend_self]
    simp
  · cases b with
    | false =>
      show dlookup (dappend g.adj_list u v) u ≠ none
      rw [dlookup_dappend_self]
      simp
    | true =>
      show dlookup (dappend (dappend g.adj_list u v) v u) u ≠ none
      by_cases huv : u = v
      · subst huv
        rw [dlookup_dappend_self]
        simp
      · rw [dlookup_dappend_ne _ v u u huv, dlookup_dappend_self]
        simp

theorem add_edge_no_validation_witness :
    ((PyGraph.init 2).add_edge (-3) 99 true).adjObs (-3)
      = (PyGraph.init 2).adjObs (-3) ++ [99] :=
  ((add_edge_no_validation (PyGraph.init 2) (-3) 99 true).2.2.1 rfl
    (by decide)).1
